import Mathlib

/-
Verification development for the SignaKit converter (src/tools/converter.py).

The converter translates between packed C struct declarations and YAML schema
documents.  Python strings are modelled as `List Char`; reading a text file as
lines (`readlines`) is modelled as a `List (List Char)` of lines without their
trailing newline characters (the parser re-appends a newline when it
accumulates a line into its buffer, matching the Python buffer contents).
The YAML layer (`yaml.dump` / `yaml.safe_load`) is modelled as the identity on
structured schema documents: `generate_yaml` produces a structured document and
`parse_yaml_file` consumes one, exactly the dictionaries built and read by the
Python code.

Throughout, literal brace characters are written with hexadecimal escapes.
-/

namespace Converter

set_option maxRecDepth 400000

/-- Convert a string literal to the character-list model used everywhere. -/
def str (s : String) : List Char := s.data

/-- Single-quote character, as used in C character literals. -/
def sq : Char := '\x27'

/-- Open-brace character. -/
def lb : Char := '\x7b'

/-- Close-brace character. -/
def rb : Char := '\x7d'

/-- Whitespace set of Python `str.strip` / `str.split` (ASCII fragment). -/
def pyIsSpace (c : Char) : Bool :=
  c = ' ' || c = '\t' || c = '\n' || c = '\r' || c = '\x0b' || c = '\x0c'

/-- Word characters of the regex class backslash-w (ASCII fragment). -/
def isWordChar (c : Char) : Bool := c.isAlphanum || c = '_'

/-- Python `s.strip()`: drop leading and trailing whitespace. -/
def pstrip (l : List Char) : List Char :=
  ((l.dropWhile pyIsSpace).reverse.dropWhile pyIsSpace).reverse

/-- Helper for the whitespace splitter: `cur` is the reversed current word. -/
def wsplitAux : List Char → List Char → List (List Char)
  | [], cur => if cur.isEmpty then [] else [cur.reverse]
  | c :: r, cur =>
    if pyIsSpace c then
      if cur.isEmpty then wsplitAux r [] else cur.reverse :: wsplitAux r []
    else wsplitAux r (c :: cur)

/-- Python `s.split()` with no separator: split on whitespace runs, no empties. -/
def wsplit (l : List Char) : List (List Char) := wsplitAux l []

/-- Python `s.split(sep)` for a one-character separator (keeps empty chunks). -/
def splitOnChar (sep : Char) : List Char → List (List Char)
  | [] => [[]]
  | c :: r =>
    if c = sep then [] :: splitOnChar sep r
    else
      match splitOnChar sep r with
      | s :: ss => (c :: s) :: ss
      | [] => [[c]]

/-- Python substring test `p in l`. -/
def containsSub (p : List Char) : List Char → Bool
  | [] => p.isEmpty
  | c :: t => p.isPrefixOf (c :: t) || containsSub p t

/-- Python `l.split(p)[0]` for a non-empty separator string `p`. -/
def beforeSub (p : List Char) : List Char → List Char
  | [] => []
  | c :: t => if p.isPrefixOf (c :: t) then [] else c :: beforeSub p t

/-- Python `", ".join`-style join of chunks with a separator string. -/
def pyJoin (sep : List Char) : List (List Char) → List Char
  | [] => []
  | [x] => x
  | x :: y :: t => x ++ sep ++ pyJoin sep (y :: t)

/-- Python `s.replace(chr(10), " ")`: newline becomes space. -/
def replaceNl (l : List Char) : List Char :=
  l.map (fun c => if c = '\n' then ' ' else c)

/-- Python `s.replace(chr(0), "")`: delete all NUL characters. -/
def nulStrip (l : List Char) : List Char := l.filter (fun c => c != '\x00')

/-- Value of a non-empty decimal digit string, as Python `int`. -/
def digitsToNat (l : List Char) : Nat :=
  l.foldl (fun a c => a * 10 + (c.toNat - 48)) 0

/-- Fuel-indexed left-to-right non-overlapping scan of `re.findall` for the
pattern quote, one non-quote character (captured), quote.  A successful
window consumes three characters, a failed one consumes one; the fuel only
bounds the recursion and one unit per consumed character always suffices. -/
def fqFuel : Nat → List Char → List Char
  | 0, _ => []
  | _, [] => []
  | fuel + 1, c :: rest =>
    match rest with
    | d :: e :: rest2 =>
      if c = sq ∧ e = sq ∧ d ≠ sq then d :: fqFuel fuel rest2
      else fqFuel fuel rest
    | _ => []

/-- The capture list of `re.findall` for quote, non-quote, quote. -/
def findQuoted (l : List Char) : List Char := fqFuel l.length l

/-- Attempted match of `re.search` pattern word-chars, open bracket, digits,
close bracket at the start of the list, returning (name, length). -/
def matchNB (l : List Char) : Option (List Char × Nat) :=
  let w := l.takeWhile isWordChar
  if w = [] then none
  else
    match l.dropWhile isWordChar with
    | '[' :: r2 =>
      let d := r2.takeWhile Char.isDigit
      if d = [] then none
      else
        match r2.dropWhile Char.isDigit with
        | ']' :: _ => some (w, digitsToNat d)
        | _ => none
    | _ => none

/-- Leftmost match of the array-declarator pattern, as `re.search`. -/
def searchNB : List Char → Option (List Char × Nat)
  | [] => none
  | c :: r =>
    match matchNB (c :: r) with
    | some x => some x
    | none => searchNB r

/-- Attempted match of the struct-start regex
`struct`, whitespace, `__attribute__((packed))`, whitespace, captured word
at the start of the list. -/
def matchStructAt (l : List Char) : Option (List Char) :=
  if (str "struct").isPrefixOf l then
    let r1 := l.drop (str "struct").length
    if r1.takeWhile pyIsSpace = [] then none
    else
      let r2 := r1.dropWhile pyIsSpace
      if (str "__attribute__((packed))").isPrefixOf r2 then
        let r3 := r2.drop (str "__attribute__((packed))").length
        if r3.takeWhile pyIsSpace = [] then none
        else
          let r4 := r3.dropWhile pyIsSpace
          let w := r4.takeWhile isWordChar
          if w = [] then none else some w
      else none
  else none

/-- Leftmost match of the struct-start regex, as `re.search`. -/
def searchStruct : List Char → Option (List Char)
  | [] => none
  | c :: r =>
    match matchStructAt (c :: r) with
    | some n => some n
    | none => searchStruct r

/-- Index of the first character satisfying `p`, Python `s.find`. -/
def ffindIdx (p : Char → Bool) (l : List Char) : Option Nat := List.findIdx? p l

/-- Index of the last character satisfying `p`, Python `s.rfind`. -/
def rfindIdx (p : Char → Bool) (l : List Char) : Option Nat :=
  match List.findIdx? p l.reverse with
  | some k => some (l.length - 1 - k)
  | none => none

/-- TYPE_SIZES lookup with the documented default width 1 for unknown names
(converter.py lines 7-13 and 25). -/
def typeSize (t : List Char) : Nat :=
  if t = str "char" then 1
  else if t = str "int8_t" then 1
  else if t = str "uint8_t" then 1
  else if t = str "short" then 2
  else if t = str "unsigned short" then 2
  else if t = str "int16_t" then 2
  else if t = str "uint16_t" then 2
  else if t = str "int" then 4
  else if t = str "unsigned int" then 4
  else if t = str "int32_t" then 4
  else if t = str "uint32_t" then 4
  else if t = str "float" then 4
  else if t = str "long" then 8
  else if t = str "unsigned long" then 8
  else if t = str "int64_t" then 8
  else if t = str "uint64_t" then 8
  else if t = str "double" then 8
  else 1

/-- Field record (converter.py lines 15-21). -/
structure Field where
  name : List Char
  type_name : List Char
  is_array : Bool
  array_size : Nat
  offset : Nat
deriving DecidableEq, Repr

/-- Field.size property (converter.py lines 23-26). -/
def Field.size (f : Field) : Nat :=
  typeSize f.type_name * (if f.is_array then f.array_size else 1)

/-- StructDef record (converter.py lines 28-33); `size` starts at 0. -/
structure StructDef where
  name : List Char
  fields : List Field
  header_string : List Char
  size : Nat
deriving DecidableEq, Repr

/-- Accumulator of the per-statement loop in parse_header_file
(fields list, running offset, header string). -/
structure BodyState where
  fields : List Field
  offset : Nat
  header_string : List Char
deriving DecidableEq, Repr

/-- One member statement of a declaration body (converter.py lines 112-150). -/
def stmtStep (st : BodyState) (stmt0 : List Char) : BodyState :=
  let stmt := replaceNl stmt0
  let hs :=
    if containsSub (str "header[") stmt && stmt.contains '=' then
      nulStrip (findQuoted stmt)
    else st.header_string
  let declPart := pstrip (stmt.takeWhile (fun c => c != '='))
  let parts := wsplit declPart
  if parts.length < 2 then ⟨st.fields, st.offset, hs⟩
  else
    let fnameFull := parts.getLastD []
    let ftype := pyJoin (str " ") parts.dropLast
    let arr : Bool × Nat × List Char :=
      if fnameFull.contains '[' then
        match searchNB fnameFull with
        | some (nm, k) => (true, k, nm)
        | none => (true, 0, fnameFull)
      else (false, 0, fnameFull)
    let fld : Field := ⟨arr.2.2, ftype, arr.1, arr.2.1, st.offset⟩
    ⟨st.fields ++ [fld], st.offset + fld.size, hs⟩

/-- The ordinary-field part of the statement loop (converter.py lines
126-150) in isolation, without the header-string update of lines 122-124. -/
def ordinaryStep (st : List Field × Nat) (stmt0 : List Char) : List Field × Nat :=
  let stmt := replaceNl stmt0
  let declPart := pstrip (stmt.takeWhile (fun c => c != '='))
  let parts := wsplit declPart
  if parts.length < 2 then st
  else
    let fnameFull := parts.getLastD []
    let ftype := pyJoin (str " ") parts.dropLast
    let arr : Bool × Nat × List Char :=
      if fnameFull.contains '[' then
        match searchNB fnameFull with
        | some (nm, k) => (true, k, nm)
        | none => (true, 0, fnameFull)
      else (false, 0, fnameFull)
    let fld : Field := ⟨arr.2.2, ftype, arr.1, arr.2.1, st.2⟩
    (st.1 ++ [fld], st.2 + fld.size)

/-- Parse one accumulated declaration body (converter.py lines 108-152). -/
def parseStructBody (name body : List Char) : StructDef :=
  let stmts := ((splitOnChar ';' body).map pstrip).filter (fun s => !s.isEmpty)
  let fin := stmts.foldl stmtStep ⟨[], 0, []⟩
  ⟨name, fin.fields, fin.header_string, fin.offset⟩

/-- State of the line loop of parse_header_file (converter.py lines 41-44). -/
structure PState where
  structs : List StructDef
  in_struct : Bool
  current_name : List Char
  brace_count : Int
  buffer : List Char
deriving DecidableEq, Repr

/-- Line-skip test (converter.py lines 53-58): strip the line, cut a `//`
comment, strip again; an empty result skips the line entirely. -/
def stepSkip (line : List Char) : Bool :=
  let s0 := pstrip line
  let s1 := if containsSub (str "//") s0 then pstrip (beforeSub (str "//") s0) else s0
  s1.isEmpty

/-- Entering a declaration (converter.py lines 61-70): record the name, reset
the brace count and buffer; if the line has an open brace, count the braces of
the line once already here. -/
def openState (st : PState) (nm line : List Char) : PState :=
  ⟨st.structs, true, nm,
    (if line.contains lb then (line.count lb : Int) - (line.count rb : Int) else 0),
    []⟩

/-- Close test (converter.py line 96): substring close-brace-semicolon in the
line, or the stripped buffer ends with it. -/
def closeCond (line buf : List Char) : Bool :=
  containsSub [rb, ';'] line || [rb, ';'].isSuffixOf (pstrip buf)

/-- Closing a declaration (converter.py lines 97-153): body is the buffer
between the first open brace and the last close brace; if either is missing no
record is produced. -/
def closeState (st : PState) (bc : Int) (buf : List Char) : PState :=
  ⟨st.structs ++
      (match ffindIdx (fun c => c = lb) buf, rfindIdx (fun c => c = rb) buf with
       | some i, some j => [parseStructBody st.current_name ((buf.drop (i + 1)).take (j - (i + 1)))]
       | _, _ => []),
    false, st.current_name, bc, buf⟩

/-- The updated brace count for one accumulated line (converter.py lines
84-91; the two branches there are identical, so the count is unconditional). -/
def newBrace (st : PState) (line : List Char) : Int :=
  st.brace_count + (line.count lb : Int) - (line.count rb : Int)

/-- The updated buffer for one accumulated line (converter.py line 93); the
Python buffer keeps the newline of every line. -/
def newBuffer (st : PState) (line : List Char) : List Char :=
  st.buffer ++ line ++ ['\n']

/-- Inside-declaration handling of one line (converter.py lines 78-153):
count braces, append the line to the buffer, and close when the count is zero
and the close test holds. -/
def inStructStep (st : PState) (line : List Char) : PState :=
  if newBrace st line = 0 ∧ closeCond line (newBuffer st line) then
    closeState st (newBrace st line) (newBuffer st line)
  else ⟨st.structs, true, st.current_name, newBrace st line, newBuffer st line⟩

/-- Struct-start detection for one line (converter.py lines 60-70): outside a
declaration a regex match opens one, otherwise nothing changes. -/
def maybeOpen (st : PState) (line : List Char) : PState :=
  if st.in_struct then st
  else
    match searchStruct line with
    | some nm => openState st nm line
    | none => st

/-- One iteration of the line loop of parse_header_file (lines 52-153). -/
def pstep (st : PState) (line : List Char) : PState :=
  if stepSkip line then st
  else if (maybeOpen st line).in_struct then inStructStep (maybeOpen st line) line
  else maybeOpen st line

/-- Initial state of the line loop. -/
def initPState : PState := ⟨[], false, [], 0, []⟩

/-- parse_header_file (converter.py lines 35-155) on the list of input lines:
run the line machine and return the collected records. -/
def parse_header_file (lines : List (List Char)) : List StructDef :=
  (lines.foldl pstep initPState).structs

/-- One field entry of a schema document. -/
structure YamlField where
  name : List Char
  type : List Char
  offset : Nat
deriving DecidableEq, Repr

/-- One packet descriptor of a schema document.  `header_string` and `fields`
are optional keys (read with `.get` defaults); `id` is mandatory. -/
structure YamlPacket where
  id : List Char
  header_string : Option (List Char)
  size_check : Nat
  time_field : List Char
  fields : Option (List YamlField)
deriving DecidableEq, Repr

/-- A schema document: the `packets` list. -/
structure YamlDoc where
  packets : List YamlPacket
deriving DecidableEq, Repr

/-- Packet identifier heuristic (converter.py lines 163-165): strip a
trailing `Data` from the record name. -/
def toPacketId (name : List Char) : List Char :=
  if (str "Data").isSuffixOf name then name.take (name.length - 4) else name

/-- Inverse name reconstruction of parse_yaml_file (converter.py line 199):
append `Data` to the packet identifier. -/
def toRecordName (id : List Char) : List Char := id ++ str "Data"

/-- Fields kept by the schema emitter (converter.py line 179): every field
not literally named `header`. -/
def schemaVisible (fields : List Field) : List Field :=
  fields.filter (fun f => f.name ≠ str "header")

/-- One packet of generate_yaml (converter.py lines 160-188). -/
def genPacket (s : StructDef) : YamlPacket :=
  let pid := toPacketId s.name
  ⟨pid,
    some (if s.header_string.isEmpty then pid else s.header_string),
    s.size,
    str "time",
    some ((schemaVisible s.fields).map (fun f => ⟨f.name, f.type_name, f.offset⟩))⟩

/-- generate_yaml (converter.py lines 157-191) as a structured document. -/
def generate_yaml (structs : List StructDef) : YamlDoc :=
  ⟨structs.map genPacket⟩

/-- Stable insertion into a list ordered by offset: the new element goes
before the first strictly-or-equally larger offset, i.e. after every earlier
element with an offset less than or equal to it would be unstable, so equal
offsets keep the earlier element first. -/
def insertByOffset (f : Field) : List Field → List Field
  | [] => [f]
  | g :: t => if f.offset ≤ g.offset then f :: g :: t else g :: insertByOffset f t

/-- The offset sort of parse_yaml_file (converter.py line 227).  Python
`list.sort(key=...)` is a stable ascending sort; a stable sort by a key is
extensionally unique, and this insertion sort is proved below to be exactly
that: sorted by offset, and offset-preimages keep their input order. -/
def sortFields : List Field → List Field
  | [] => []
  | f :: t => insertByOffset f (sortFields t)

/-- The raw field list a packet descriptor turns into before sorting
(converter.py lines 219-224): Field objects with default is_array/array_size. -/
def rawYamlFields (p : YamlPacket) : List Field :=
  (p.fields.getD []).map (fun f => ⟨f.name, f.type, false, 0, f.offset⟩)

/-- One packet of parse_yaml_file (converter.py lines 198-228).  Note that
`size_check` is never read and `size` keeps the constructor default 0. -/
def parsePacket (p : YamlPacket) : StructDef :=
  ⟨toRecordName p.id, sortFields (rawYamlFields p), p.header_string.getD [], 0⟩

/-- parse_yaml_file (converter.py lines 193-230) on a structured document. -/
def parse_yaml_file (d : YamlDoc) : List StructDef :=
  d.packets.map parsePacket

/-- A C character literal with the given character. -/
def quoteLit (c : Char) : List Char := [sq, c, sq]

/-- The C literal for a NUL character, backslash-zero in quotes. -/
def nullLit : List Char := [sq, '\\', '0', sq]

/-- The initializer slots of the synthetic header member (converter.py line
246): one character literal per tag character, then null-character literals up
to four slots (Python negative list repetition is empty, as Nat subtraction). -/
def headerSlots (tag : List Char) : List (List Char) :=
  tag.map quoteLit ++ List.replicate (4 - tag.length) nullLit

/-- Offset of the first field, or 0 for an empty list (converter.py line 243). -/
def firstOffset (s : StructDef) : Nat :=
  match s.fields with
  | [] => 0
  | f :: _ => f.offset

/-- Emission condition for the synthetic header member (converter.py line
244): first field offset at least 4 and a non-empty header string. -/
def emitsHeaderLine (s : StructDef) : Bool :=
  decide (4 ≤ firstOffset s) && !s.header_string.isEmpty

/-- The synthetic header member line (converter.py lines 246-247). -/
def headerLine (tag : List Char) : List Char :=
  str "    char header[4] = " ++ [lb] ++ pyJoin (str ", ") (headerSlots tag) ++ [rb, ';']

/-- One emitted member line (converter.py line 250). -/
def fieldLine (f : Field) : List Char :=
  str "    " ++ f.type_name ++ [' '] ++ f.name ++ [';']

/-- The emitted lines of one struct declaration (converter.py lines 237-252),
final blank line included. -/
def structLines (s : StructDef) : List (List Char) :=
  (str "struct __attribute__((packed)) " ++ s.name) :: [lb] ::
    ((if emitsHeaderLine s then [headerLine s.header_string] else []) ++
      s.fields.map fieldLine ++ [[rb, ';'], []])

/-- generate_header (converter.py lines 232-252) as output lines. -/
def generate_header (structs : List StructDef) : List (List Char) :=
  str "#pragma once" :: str "#include <cstdint>" :: [] :: (structs.map structLines).flatten

/-! Helper lemmas about the Python string primitives. -/

/-- A whitespace character is not a word character. -/
theorem space_not_word (c : Char) (h : pyIsSpace c = true) : isWordChar c = false := by
  simp only [pyIsSpace, Bool.or_eq_true, decide_eq_true_eq] at h
  rcases h with ((((h | h) | h) | h) | h) | h <;> subst h <;> decide

/-- A word character is not whitespace. -/
theorem word_not_space (c : Char) (h : isWordChar c = true) : pyIsSpace c = false := by
  cases hs : pyIsSpace c
  · rfl
  · rw [space_not_word c hs] at h; cases h

/-- A word character differs from any non-word character. -/
theorem word_ne (c x : Char) (h : isWordChar c = true) (hx : isWordChar x = false) : c ≠ x := by
  intro e; subst e; rw [h] at hx; cases hx

/-- Characters of a substring occurrence occur in the string. -/
theorem containsSub_subset (p l : List Char) (h : containsSub p l = true) : ∀ c ∈ p, c ∈ l := by
  induction l with
  | nil =>
    simp only [containsSub, List.isEmpty_iff] at h
    subst h; intro c hc; cases hc
  | cons x t ih =>
    simp only [containsSub, Bool.or_eq_true] at h
    intro c hc
    rcases h with h | h
    · exact (List.isPrefixOf_iff_prefix.mp h).subset hc
    · exact List.mem_cons_of_mem x (ih h c hc)

/-- The substring test fails when the pattern has a character the text lacks. -/
theorem containsSub_eq_false (p l : List Char) (c : Char) (hc : c ∈ p) (hl : c ∉ l) :
    containsSub p l = false := by
  cases h : containsSub p l
  · rfl
  · exact absurd (containsSub_subset p l h c hc) hl

/-- The substring test succeeds on an explicit occurrence. -/
theorem containsSub_middle (a p b : List Char) : containsSub p (a ++ p ++ b) = true := by
  induction a with
  | nil =>
    cases p with
    | nil => cases b <;> simp [containsSub]
    | cons x t =>
      simp only [List.nil_append, containsSub, Bool.or_eq_true]
      exact Or.inl (List.isPrefixOf_iff_prefix.mpr (by simp [List.prefix_append]))
  | cons y a ih =>
    simp only [List.cons_append, containsSub, Bool.or_eq_true]
    exact Or.inr ih

/-- takeWhile over an all-satisfying prefix. -/
theorem takeWhile_append_all (p : Char → Bool) (a b : List Char) (h : ∀ c ∈ a, p c = true) :
    (a ++ b).takeWhile p = a ++ b.takeWhile p := by
  induction a with
  | nil => simp
  | cons x t ih =>
    have hx := h x (List.mem_cons_self x t)
    simp only [List.cons_append, List.takeWhile_cons, hx, if_true]
    rw [ih (fun c hc => h c (List.mem_cons_of_mem x hc))]

/-- takeWhile of an all-satisfying list is the list. -/
theorem takeWhile_eq_self_of (p : Char → Bool) (a : List Char) (h : ∀ c ∈ a, p c = true) :
    a.takeWhile p = a := by
  have := takeWhile_append_all p a [] h
  simpa using this

/-- dropWhile over an all-satisfying prefix. -/
theorem dropWhile_append_all (p : Char → Bool) (a b : List Char) (h : ∀ c ∈ a, p c = true) :
    (a ++ b).dropWhile p = b.dropWhile p := by
  induction a with
  | nil => simp
  | cons x t ih =>
    have hx := h x (List.mem_cons_self x t)
    simp only [List.cons_append, List.dropWhile_cons, hx, if_true]
    exact ih (fun c hc => h c (List.mem_cons_of_mem x hc))

/-- Strip of the empty string. -/
theorem pstrip_nil : pstrip [] = [] := rfl

/-- Characters surviving a strip were in the string. -/
theorem mem_pstrip (l : List Char) (c : Char) (h : c ∈ pstrip l) : c ∈ l := by
  simp only [pstrip, List.mem_reverse] at h
  have h2 := (List.dropWhile_sublist (l := (l.dropWhile pyIsSpace).reverse) pyIsSpace).subset h
  simp only [List.mem_reverse] at h2
  exact (List.dropWhile_sublist pyIsSpace).subset h2

/-- A strip is empty exactly when the string is all whitespace. -/
theorem pstrip_eq_nil_iff (l : List Char) : pstrip l = [] ↔ ∀ c ∈ l, pyIsSpace c = true := by
  constructor
  · intro h c hc
    by_contra hns
    have hmem : c ∈ l.dropWhile pyIsSpace := by
      have hsplit : c ∈ l.takeWhile pyIsSpace ++ l.dropWhile pyIsSpace := by
        rw [List.takeWhile_append_dropWhile]; exact hc
      rcases List.mem_append.mp hsplit with hm | hm
      · exact absurd (List.mem_takeWhile_imp hm) hns
      · exact hm
    have : (l.dropWhile pyIsSpace).reverse.dropWhile pyIsSpace = [] := by
      simpa [pstrip] using congrArg List.reverse h
    have hall := List.dropWhile_eq_nil_iff.mp this
    exact hns (hall c (List.mem_reverse.mpr hmem))
  · intro h
    have : l.dropWhile pyIsSpace = [] := List.dropWhile_eq_nil_iff.mpr h
    simp [pstrip, this]

/-- Membership in a join: every character is from the separator or a chunk. -/
theorem mem_pyJoin (sep : List Char) (parts : List (List Char)) (c : Char)
    (h : c ∈ pyJoin sep parts) : c ∈ sep ∨ ∃ x ∈ parts, c ∈ x := by
  induction parts with
  | nil => cases h
  | cons x t ih =>
    cases t with
    | nil =>
      right; exact ⟨x, List.mem_cons_self x [], by simpa [pyJoin] using h⟩
    | cons y t2 =>
      simp only [pyJoin, List.append_assoc, List.mem_append] at h
      rcases h with h | h | h
      · right; exact ⟨x, List.mem_cons_self _ _, h⟩
      · exact Or.inl h
      · rcases ih h with h2 | ⟨z, hz, hcz⟩
        · exact Or.inl h2
        · exact Or.inr ⟨z, List.mem_cons_of_mem x hz, hcz⟩


/-- Head-is-not-whitespace property used to compute strips. -/
def headNotSpace : List Char → Prop
  | [] => False
  | c :: _ => pyIsSpace c = false

/-- dropWhile keeps a list whose head fails the test. -/
theorem dropWhile_of_headNotSpace (l : List Char) (h : headNotSpace l) :
    l.dropWhile pyIsSpace = l := by
  cases l with
  | nil => cases h
  | cons c t =>
    simp only [headNotSpace] at h
    simp [List.dropWhile_cons, h]

/-- Stripping whitespace around a core with non-space first and last character. -/
theorem pstrip_sandwich (ws core tws : List Char)
    (hws : ∀ c ∈ ws, pyIsSpace c = true) (htws : ∀ c ∈ tws, pyIsSpace c = true)
    (hh : headNotSpace core) (hl : headNotSpace core.reverse) :
    pstrip (ws ++ core ++ tws) = core := by
  unfold pstrip
  rw [List.append_assoc, dropWhile_append_all pyIsSpace ws (core ++ tws) hws]
  have h1 : (core ++ tws).dropWhile pyIsSpace = core ++ tws := by
    cases core with
    | nil => cases hh
    | cons c t =>
      simp only [headNotSpace] at hh
      simp [List.dropWhile_cons, hh]
  rw [h1, List.reverse_append,
    dropWhile_append_all pyIsSpace tws.reverse core.reverse
      (fun c hc => htws c (List.mem_reverse.mp hc)),
    dropWhile_of_headNotSpace core.reverse hl, List.reverse_reverse]

/-- Strip of an all-space prefix followed by a core, no trailing whitespace. -/
theorem pstrip_ws_core (ws core : List Char)
    (hws : ∀ c ∈ ws, pyIsSpace c = true)
    (hh : headNotSpace core) (hl : headNotSpace core.reverse) :
    pstrip (ws ++ core) = core := by
  have h0 := pstrip_sandwich ws core [] hws (by intro c hc; cases hc) hh hl
  simpa using h0

/-- Splitting at an explicit separator occurrence, no separator before it. -/
theorem splitOnChar_append (sep : Char) (a b : List Char) (ha : sep ∉ a) :
    splitOnChar sep (a ++ sep :: b) = a :: splitOnChar sep b := by
  induction a with
  | nil => simp [splitOnChar]
  | cons c t ih =>
    have hc : c ≠ sep := fun e => ha (e ▸ List.mem_cons_self c t)
    have ht : sep ∉ t := fun hm => ha (List.mem_cons_of_mem c hm)
    simp only [List.cons_append, splitOnChar, hc, if_false, List.append_eq]
    rw [ih ht]

/-- Splitting a separator-free list. -/
theorem splitOnChar_no_sep (sep : Char) (a : List Char) (ha : sep ∉ a) :
    splitOnChar sep a = [a] := by
  induction a with
  | nil => rfl
  | cons c t ih =>
    have hc : c ≠ sep := fun e => ha (e ▸ List.mem_cons_self c t)
    have ht : sep ∉ t := fun hm => ha (List.mem_cons_of_mem c hm)
    simp only [splitOnChar, hc, if_false]
    rw [ih ht]

/-- Non-space characters accumulate into the current word of the splitter. -/
theorem wsplitAux_nonspace (a : List Char) (h : ∀ c ∈ a, pyIsSpace c = false) :
    ∀ rest cur, wsplitAux (a ++ rest) cur = wsplitAux rest (a.reverse ++ cur) := by
  induction a with
  | nil => intro rest cur; simp
  | cons c t ih =>
    intro rest cur
    have hc := h c (List.mem_cons_self c t)
    simp only [List.cons_append, wsplitAux, hc, Bool.false_eq_true, if_false, List.append_eq]
    rw [ih (fun x hx => h x (List.mem_cons_of_mem c hx)) rest (c :: cur)]
    simp

/-- Whitespace split of a single non-empty word. -/
theorem wsplit_word (a : List Char) (hne : a ≠ []) (h : ∀ c ∈ a, pyIsSpace c = false) :
    wsplit a = [a] := by
  unfold wsplit
  have h0 : wsplitAux (a ++ []) [] = wsplitAux [] (a.reverse ++ []) :=
    wsplitAux_nonspace a h [] []
  simp only [List.append_nil] at h0
  rw [h0]
  simp only [wsplitAux, List.isEmpty_iff, List.reverse_eq_nil_iff]
  simp [hne]

/-- Whitespace split of two words joined by one space. -/
theorem wsplit_two (a b : List Char) (hane : a ≠ []) (hbne : b ≠ [])
    (ha : ∀ c ∈ a, pyIsSpace c = false) (hb : ∀ c ∈ b, pyIsSpace c = false) :
    wsplit (a ++ ' ' :: b) = [a, b] := by
  unfold wsplit
  rw [wsplitAux_nonspace a ha (' ' :: b) []]
  simp only [wsplitAux, List.append_nil, List.isEmpty_iff, List.reverse_eq_nil_iff]
  have hsp : pyIsSpace ' ' = true := by decide
  simp only [hsp, if_true, hane, if_false, List.reverse_reverse]
  have hb2 : wsplitAux b [] = [b] := wsplit_word b hbne hb
  rw [hb2]

/-- takeWhile up to the first equals sign. -/
theorem takeWhile_to_eq (a b : List Char) (ha : '=' ∉ a) :
    (a ++ '=' :: b).takeWhile (fun c => c != '=') = a := by
  rw [takeWhile_append_all (fun c => c != '=') a ('=' :: b)
    (fun c hc => by
      simp only [bne_iff_ne, ne_eq]
      intro e; exact ha (e ▸ hc))]
  simp [List.takeWhile_cons]

/-- takeWhile over a list with no equals sign. -/
theorem takeWhile_no_eq (a : List Char) (ha : '=' ∉ a) :
    a.takeWhile (fun c => c != '=') = a :=
  takeWhile_eq_self_of _ a (fun c hc => by
    simp only [bne_iff_ne, ne_eq]
    intro e; exact ha (e ▸ hc))

/-- replaceNl is the identity on newline-free strings. -/
theorem replaceNl_of_no_nl (l : List Char) (h : '\n' ∉ l) : replaceNl l = l := by
  induction l with
  | nil => rfl
  | cons c t ih =>
    have hc : c ≠ '\n' := fun e => h (e ▸ List.mem_cons_self c t)
    simp only [replaceNl, List.map_cons, hc, if_false]
    have := ih (fun hm => h (List.mem_cons_of_mem c hm))
    simpa [replaceNl] using this

/-- nulStrip is the identity on NUL-free strings. -/
theorem nulStrip_of_no_nul (l : List Char) (h : '\x00' ∉ l) : nulStrip l = l := by
  unfold nulStrip
  rw [List.filter_eq_self]
  intro c hc
  simp only [bne_iff_ne, ne_eq]
  intro e; exact h (e ▸ hc)

/-- Fuel does not matter for the quote scan once it covers the length. -/
theorem fqFuel_fuel_irrel (f1 : Nat) :
    ∀ (l : List Char) (f2 : Nat), l.length ≤ f1 → l.length ≤ f2 →
      fqFuel f1 l = fqFuel f2 l := by
  induction f1 with
  | zero =>
    intro l f2 h1 _
    have : l = [] := List.length_eq_zero.mp (Nat.le_zero.mp h1)
    subst this
    cases f2 <;> rfl
  | succ f ih =>
    intro l f2 h1 h2
    cases l with
    | nil => cases f2 <;> rfl
    | cons c rest =>
      cases f2 with
      | zero => simp at h2
      | succ f2p =>
        simp only [List.length_cons, Nat.succ_le_succ_iff] at h1 h2
        cases rest with
        | nil => rfl
        | cons d rest1 =>
          cases rest1 with
          | nil => rfl
          | cons e rest2 =>
            simp only [fqFuel]
            have hlen2 : rest2.length ≤ f := by
              simp only [List.length_cons] at h1; omega
            have hlen2b : rest2.length ≤ f2p := by
              simp only [List.length_cons] at h2; omega
            have hlenr : (d :: e :: rest2).length ≤ f := by
              simpa using h1
            have hlenrb : (d :: e :: rest2).length ≤ f2p := by
              simpa using h2
            split
            · rw [ih rest2 f2p hlen2 hlen2b]
            · rw [ih (d :: e :: rest2) f2p hlenr hlenrb]

/-- Any sufficient fuel computes findQuoted. -/
theorem fqFuel_eq_findQuoted (f : Nat) (l : List Char) (h : l.length ≤ f) :
    fqFuel f l = findQuoted l :=
  fqFuel_fuel_irrel f l l.length h (Nat.le_refl _)

/-- Unfolding of the scan on a three-character window. -/
theorem fqFuel_succ_cons3 (f : Nat) (c d e : Char) (r : List Char) :
    fqFuel (f + 1) (c :: d :: e :: r) =
      if c = sq ∧ e = sq ∧ d ≠ sq then d :: fqFuel f r else fqFuel f (d :: e :: r) := rfl

/-- The scan on a string of fewer than three characters finds nothing. -/
theorem fqFuel_short (f : Nat) (l : List Char) (h : l.length ≤ 2) : fqFuel f l = [] := by
  cases f with
  | zero => cases l <;> rfl
  | succ f =>
    cases l with
    | nil => rfl
    | cons c rest =>
      cases rest with
      | nil => rfl
      | cons d rest1 =>
        cases rest1 with
        | nil => rfl
        | cons e rest2 => simp at h

/-- The quote scan on the empty string. -/
theorem findQuoted_nil : findQuoted [] = [] := rfl

/-- The quote scan skips a leading non-quote character. -/
theorem findQuoted_cons_ne (c : Char) (rest : List Char) (hc : c ≠ sq) :
    findQuoted (c :: rest) = findQuoted rest := by
  unfold findQuoted
  cases rest with
  | nil => rfl
  | cons d rest1 =>
    cases rest1 with
    | nil =>
      rw [fqFuel_short _ _ (by simp), fqFuel_short _ _ (by simp)]
    | cons e rest2 =>
      show fqFuel (rest2.length + 2 + 1) (c :: d :: e :: rest2) = _
      rw [fqFuel_succ_cons3, if_neg (fun hx => hc hx.1)]
      exact fqFuel_eq_findQuoted _ _ (by simp)

/-- The quote scan captures a complete character literal. -/
theorem findQuoted_capture (d : Char) (rest : List Char) (hd : d ≠ sq) :
    findQuoted (sq :: d :: sq :: rest) = d :: findQuoted rest := by
  unfold findQuoted
  show fqFuel (rest.length + 2 + 1) (sq :: d :: sq :: rest) = _
  rw [fqFuel_succ_cons3, if_pos ⟨rfl, rfl, hd⟩]
  rw [fqFuel_eq_findQuoted _ _ (by omega)]
  rfl

/-- The quote scan advances past a quote with no capture window. -/
theorem findQuoted_sq_fail (rest : List Char)
    (h : ∀ d e r2, rest = d :: e :: r2 → ¬(e = sq ∧ d ≠ sq)) :
    findQuoted (sq :: rest) = findQuoted rest := by
  unfold findQuoted
  cases rest with
  | nil => rfl
  | cons d rest1 =>
    cases rest1 with
    | nil =>
      rw [fqFuel_short _ _ (by simp), fqFuel_short _ _ (by simp)]
    | cons e rest2 =>
      show fqFuel (rest2.length + 2 + 1) (sq :: d :: e :: rest2) = _
      rw [fqFuel_succ_cons3,
        if_neg (fun hx => h d e rest2 rfl ⟨hx.2.1, hx.2.2⟩)]
      exact fqFuel_eq_findQuoted _ _ (by simp)

/-- The quote scan ignores a quote-free prefix. -/
theorem findQuoted_no_quote (a rest : List Char) (ha : sq ∉ a) :
    findQuoted (a ++ rest) = findQuoted rest := by
  induction a with
  | nil => rfl
  | cons c t ih =>
    have hc : c ≠ sq := fun e => ha (e ▸ List.mem_cons_self c t)
    rw [List.cons_append, findQuoted_cons_ne c (t ++ rest) hc,
      ih (fun hm => ha (List.mem_cons_of_mem c hm))]

/-! Derived notions used by the claims. -/

/-- Sum of the sizes of a field list. -/
def sumSizes (l : List Field) : Nat := (l.map Field.size).sum

/-- Offsets chain from `n`: each field sits at the running cursor and the
cursor advances by the field size. -/
def chainedFrom : Nat → List Field → Prop
  | _, [] => True
  | n, f :: t => f.offset = n ∧ chainedFrom (n + f.size) t

theorem sumSizes_nil : sumSizes [] = 0 := rfl

theorem sumSizes_cons (f : Field) (t : List Field) :
    sumSizes (f :: t) = f.size + sumSizes t := by
  simp [sumSizes]

theorem sumSizes_append_one (l : List Field) (f : Field) :
    sumSizes (l ++ [f]) = sumSizes l + f.size := by
  simp [sumSizes]

/-- Appending a field at the running cursor keeps the chain. -/
theorem chainedFrom_append (l : List Field) :
    ∀ (n : Nat) (f : Field), chainedFrom n l → f.offset = n + sumSizes l →
      chainedFrom n (l ++ [f]) := by
  induction l with
  | nil =>
    intro n f _ hf
    exact ⟨by simpa [sumSizes] using hf, trivial⟩
  | cons g t ih =>
    intro n f h hf
    obtain ⟨hg, ht⟩ := h
    refine ⟨hg, ih (n + g.size) f ht ?_⟩
    rw [hf, sumSizes_cons]
    omega

/-- All offsets in a chain are at least the start cursor. -/
theorem chainedFrom_le (l : List Field) :
    ∀ n, chainedFrom n l → ∀ f ∈ l, n ≤ f.offset := by
  induction l with
  | nil => intro n _ f hf; cases hf
  | cons g t ih =>
    intro n h f hf
    obtain ⟨hg, ht⟩ := h
    rcases List.mem_cons.mp hf with rfl | hf
    · omega
    · have := ih (n + g.size) ht f hf
      omega

/-- Chained offsets are pairwise non-decreasing in list order. -/
theorem chainedFrom_pairwise (l : List Field) :
    ∀ n, chainedFrom n l → List.Pairwise (fun a b => a.offset ≤ b.offset) l := by
  induction l with
  | nil => intro n _; exact List.Pairwise.nil
  | cons g t ih =>
    intro n h
    obtain ⟨hg, ht⟩ := h
    refine List.Pairwise.cons ?_ (ih (n + g.size) ht)
    intro f hf
    have := chainedFrom_le t (n + g.size) ht f hf
    omega

/-! Lemmas about the stable offset sort of the schema parser. -/

/-- Membership after insertion. -/
theorem mem_insertByOffset (f : Field) (l : List Field) (x : Field) :
    x ∈ insertByOffset f l ↔ x = f ∨ x ∈ l := by
  induction l with
  | nil => simp [insertByOffset]
  | cons g t ih =>
    by_cases h : f.offset ≤ g.offset
    · simp [insertByOffset, h]
      try tauto
    · simp [insertByOffset, h, ih]
      try tauto

/-- Insertion keeps the list sorted by offset. -/
theorem insertByOffset_pairwise (f : Field) (l : List Field)
    (h : List.Pairwise (fun a b => a.offset ≤ b.offset) l) :
    List.Pairwise (fun a b => a.offset ≤ b.offset) (insertByOffset f l) := by
  induction l with
  | nil => simp [insertByOffset]
  | cons g t ih =>
    rcases List.pairwise_cons.mp h with ⟨hg, ht⟩
    by_cases hle : f.offset ≤ g.offset
    · simp only [insertByOffset, hle, if_true]
      refine List.pairwise_cons.mpr ⟨?_, h⟩
      intro x hx
      rcases List.mem_cons.mp hx with rfl | hx
      · exact hle
      · exact Nat.le_trans hle (hg x hx)
    · simp only [insertByOffset, hle, if_false]
      refine List.pairwise_cons.mpr ⟨?_, ih ht⟩
      intro x hx
      rcases (mem_insertByOffset f t x).mp hx with rfl | hx
      · omega
      · exact hg x hx

/-- The schema-parser sort returns an offset-sorted list. -/
theorem sortFields_pairwise (l : List Field) :
    List.Pairwise (fun a b => a.offset ≤ b.offset) (sortFields l) := by
  induction l with
  | nil => exact List.Pairwise.nil
  | cons f t ih => exact insertByOffset_pairwise f (sortFields t) ih

/-- Insertion moves the new field only past strictly smaller offsets, so the
filter at any fixed offset sees the new field first. -/
theorem insertByOffset_filter (f : Field) (l : List Field) (v : Nat) :
    (insertByOffset f l).filter (fun g => g.offset == v) =
      (f :: l).filter (fun g => g.offset == v) := by
  induction l with
  | nil => rfl
  | cons g t ih =>
    by_cases hle : f.offset ≤ g.offset
    · simp [insertByOffset, hle]
    · simp only [insertByOffset, hle, if_false]
      by_cases hgv : g.offset = v
      · have hfv : ¬(f.offset = v) := by omega
        simp only [List.filter_cons, hgv, beq_self_eq_true, if_true, ih]
        try simp [List.filter_cons, hfv, hgv]
      · simp only [List.filter_cons, beq_iff_eq, hgv, if_false, ih]
        try simp [List.filter_cons, hgv]

/-- The sort is stable: the sublist at any fixed offset is unchanged. -/
theorem sortFields_filter (l : List Field) (v : Nat) :
    (sortFields l).filter (fun g => g.offset == v) =
      l.filter (fun g => g.offset == v) := by
  induction l with
  | nil => rfl
  | cons f t ih =>
    show (insertByOffset f (sortFields t)).filter _ = _
    rw [insertByOffset_filter]
    simp only [List.filter_cons]
    rw [ih]

/-- Inserting below every offset of a sorted list puts the field in front. -/
theorem insertByOffset_front (f : Field) (l : List Field)
    (h : ∀ g ∈ l, f.offset ≤ g.offset) : insertByOffset f l = f :: l := by
  cases l with
  | nil => rfl
  | cons g t =>
    simp [insertByOffset, h g (List.mem_cons_self g t)]

/-- Sorting an already offset-sorted list changes nothing. -/
theorem sortFields_of_pairwise (l : List Field)
    (h : List.Pairwise (fun a b => a.offset ≤ b.offset) l) : sortFields l = l := by
  induction l with
  | nil => rfl
  | cons f t ih =>
    rcases List.pairwise_cons.mp h with ⟨hf, ht⟩
    show insertByOffset f (sortFields t) = f :: t
    rw [ih ht]
    exact insertByOffset_front f t hf

/-! Invariants of the statement fold and the line machine. -/

/-- One statement either changes nothing or appends one field at the cursor. -/
theorem stmtStep_cases (st : BodyState) (stmt : List Char) :
    ((stmtStep st stmt).fields = st.fields ∧ (stmtStep st stmt).offset = st.offset) ∨
      ∃ fld : Field, fld.offset = st.offset ∧
        (stmtStep st stmt).fields = st.fields ++ [fld] ∧
        (stmtStep st stmt).offset = st.offset + fld.size := by
  simp only [stmtStep]
  split
  · exact Or.inl ⟨rfl, rfl⟩
  · exact Or.inr ⟨_, rfl, rfl, rfl⟩

/-- The statement fold keeps offsets chained and the cursor equal to the sum
of the accumulated field sizes. -/
theorem stmtStep_fold_inv (stmts : List (List Char)) :
    ∀ st : BodyState, chainedFrom 0 st.fields → st.offset = sumSizes st.fields →
      chainedFrom 0 (stmts.foldl stmtStep st).fields ∧
        (stmts.foldl stmtStep st).offset = sumSizes (stmts.foldl stmtStep st).fields := by
  induction stmts with
  | nil => intro st h1 h2; exact ⟨h1, h2⟩
  | cons stmt rest ih =>
    intro st h1 h2
    rw [List.foldl_cons]
    rcases stmtStep_cases st stmt with ⟨hf, ho⟩ | ⟨fld, hoff, hf, ho⟩
    · exact ih _ (hf ▸ h1) (by rw [hf, ho]; exact h2)
    · refine ih _ ?_ ?_
      · rw [hf]
        exact chainedFrom_append st.fields 0 fld h1 (by simpa [h2] using hoff)
      · rw [hf, ho, sumSizes_append_one, h2]

/-- Every record built from one declaration body has chained offsets starting
at zero and a size equal to the sum of its field sizes. -/
theorem parseStructBody_prop (nm body : List Char) :
    chainedFrom 0 (parseStructBody nm body).fields ∧
      (parseStructBody nm body).size = sumSizes (parseStructBody nm body).fields := by
  unfold parseStructBody
  exact stmtStep_fold_inv _ ⟨[], 0, []⟩ trivial rfl

/-- Closing a declaration appends at most one record built by
parseStructBody. -/
theorem closeState_structs (st : PState) (bc : Int) (buf : List Char) :
    (closeState st bc buf).structs = st.structs ∨
      ∃ body, (closeState st bc buf).structs =
        st.structs ++ [parseStructBody st.current_name body] := by
  cases h1 : ffindIdx (fun c => c = lb) buf with
  | none => left; simp [closeState, h1]
  | some i =>
    cases h2 : rfindIdx (fun c => c = rb) buf with
    | none => left; simp [closeState, h1, h2]
    | some j =>
      right
      exact ⟨(buf.drop (i + 1)).take (j - (i + 1)), by simp [closeState, h1, h2]⟩

/-- The open transition never touches the record list. -/
theorem maybeOpen_structs (st : PState) (line : List Char) :
    (maybeOpen st line).structs = st.structs := by
  unfold maybeOpen
  split
  · rfl
  · split <;> rfl

/-- The open transition never touches the record name except through a match. -/
theorem inStructStep_structs_cases (st : PState) (line : List Char) :
    (inStructStep st line).structs = st.structs ∨
      ∃ nm body, (inStructStep st line).structs =
        st.structs ++ [parseStructBody nm body] := by
  unfold inStructStep
  split
  · rcases closeState_structs st (newBrace st line) (newBuffer st line) with h | ⟨body, h⟩
    · exact Or.inl h
    · exact Or.inr ⟨_, _, h⟩
  · exact Or.inl rfl

/-- One line-machine step either keeps the record list or appends one record
built by parseStructBody. -/
theorem pstep_structs_cases (st : PState) (line : List Char) :
    (pstep st line).structs = st.structs ∨
      ∃ nm body, (pstep st line).structs = st.structs ++ [parseStructBody nm body] := by
  unfold pstep
  split
  · exact Or.inl rfl
  · split
    · rcases inStructStep_structs_cases (maybeOpen st line) line with h | ⟨nm, body, h⟩
      · exact Or.inl (h.trans (maybeOpen_structs st line))
      · exact Or.inr ⟨nm, body, h.trans (by rw [maybeOpen_structs st line])⟩
    · exact Or.inl (maybeOpen_structs st line)

/-- Key machine invariant: every collected record satisfies any property that
all outputs of parseStructBody satisfy. -/
theorem foldl_pstep_inv (P : StructDef → Prop)
    (hbody : ∀ nm body, P (parseStructBody nm body)) (lines : List (List Char)) :
    ∀ st : PState, (∀ s ∈ st.structs, P s) →
      ∀ s ∈ (lines.foldl pstep st).structs, P s := by
  induction lines with
  | nil => intro st h; exact h
  | cons line rest ih =>
    intro st h
    rw [List.foldl_cons]
    refine ih (pstep st line) ?_
    rcases pstep_structs_cases st line with hc | ⟨nm, body, hc⟩
    · rw [hc]; exact h
    · rw [hc]
      intro s hs
      rcases List.mem_append.mp hs with hs | hs
      · exact h s hs
      · rcases List.mem_singleton.mp hs with rfl
        exact hbody nm body

/-- Every record of parse_header_file has chained offsets from zero and size
equal to the sum of its field sizes. -/
theorem parse_header_file_prop (L : List (List Char)) :
    ∀ s ∈ parse_header_file L,
      chainedFrom 0 s.fields ∧ s.size = sumSizes s.fields := by
  unfold parse_header_file
  refine foldl_pstep_inv _ ?_ L initPState ?_
  · intro nm body; exact parseStructBody_prop nm body
  · intro s hs; cases hs

/-! Machinery for the unterminated-declaration behaviour. -/

/-- The machine stays inside a declaration throughout a list of lines. -/
def staysOpen (st : PState) : List (List Char) → Bool
  | [] => true
  | l :: ls => (pstep st l).in_struct && staysOpen (pstep st l) ls

/-- A step that leaves the machine inside a declaration collects no record. -/
theorem pstep_structs_of_in_struct (st : PState) (line : List Char)
    (h : (pstep st line).in_struct = true) : (pstep st line).structs = st.structs := by
  unfold pstep at h ⊢
  by_cases hskip : stepSkip line = true
  · rw [if_pos hskip]
  · rw [if_neg hskip] at h ⊢
    by_cases hopen : (maybeOpen st line).in_struct = true
    · rw [if_pos hopen] at h ⊢
      unfold inStructStep at h ⊢
      by_cases hclose : newBrace (maybeOpen st line) line = 0 ∧
          closeCond line (newBuffer (maybeOpen st line) line) = true
      · rw [if_pos hclose] at h
        simp [closeState] at h
      · rw [if_neg hclose]
        exact maybeOpen_structs st line
    · rw [if_neg hopen]
      exact maybeOpen_structs st line

/-- Lines that keep the machine inside a declaration contribute no records,
and leave the machine inside the declaration when there is at least one. -/
theorem staysOpen_foldl (L : List (List Char)) :
    ∀ st : PState, staysOpen st L = true →
      (L.foldl pstep st).structs = st.structs ∧
        (L ≠ [] → (L.foldl pstep st).in_struct = true) := by
  induction L with
  | nil => intro st _; exact ⟨rfl, fun h => absurd rfl h⟩
  | cons l ls ih =>
    intro st h
    simp only [staysOpen, Bool.and_eq_true] at h
    obtain ⟨h1, h2⟩ := h
    rw [List.foldl_cons]
    obtain ⟨ihs, ihi⟩ := ih (pstep st l) h2
    refine ⟨ihs.trans (pstep_structs_of_in_struct st l h1), fun _ => ?_⟩
    cases ls with
    | nil => simpa using h1
    | cons a b => exact ihi (by simp)

/-! Statement-level behaviour of the header-tag branch, for claim C10. -/

/-- A statement with the header marker and an equals sign sets the header
string from its own character literals, whatever it was before. -/
theorem stmtStep_header_sets (st : BodyState) (stmt : List Char)
    (h1 : containsSub (str "header[") (replaceNl stmt) = true)
    (h2 : (replaceNl stmt).contains '=' = true) :
    (stmtStep st stmt).header_string = nulStrip (findQuoted (replaceNl stmt)) := by
  simp only [stmtStep, h1, h2, Bool.and_self, if_true]
  split <;> rfl

/-- A statement without the header marker or equals sign keeps the header
string. -/
theorem stmtStep_header_keeps (st : BodyState) (stmt : List Char)
    (h : ¬(containsSub (str "header[") (replaceNl stmt) = true ∧
        (replaceNl stmt).contains '=' = true)) :
    (stmtStep st stmt).header_string = st.header_string := by
  have hb : (containsSub (str "header[") (replaceNl stmt) &&
      (replaceNl stmt).contains '=') = false := by
    rw [Bool.and_eq_false_iff]
    by_cases hc : containsSub (str "header[") (replaceNl stmt) = true
    · right; by_contra hk
      exact h ⟨hc, by revert hk; cases (replaceNl stmt).contains '=' <;> simp⟩
    · left; revert hc; cases containsSub (str "header[") (replaceNl stmt) <;> simp
  simp only [stmtStep, hb, Bool.false_eq_true, if_false]
  split <;> rfl

/-- Statements without the header marker never change the header string. -/
theorem stmtStep_fold_header_keeps (l2 : List (List Char))
    (h : ∀ u ∈ l2, ¬(containsSub (str "header[") (replaceNl u) = true ∧
        (replaceNl u).contains '=' = true)) :
    ∀ st : BodyState, (l2.foldl stmtStep st).header_string = st.header_string := by
  induction l2 with
  | nil => intro st; rfl
  | cons u rest ih =>
    intro st
    rw [List.foldl_cons]
    rw [ih (fun x hx => h x (List.mem_cons_of_mem u hx)) (stmtStep st u)]
    exact stmtStep_header_keeps st u (h u (List.mem_cons_self u rest))

/-- The field-and-offset effect of any statement is exactly the ordinary
field path of converter.py lines 126-150, with or without the header branch. -/
theorem stmtStep_fields_ordinary (st : BodyState) (stmt : List Char) :
    (stmtStep st stmt).fields = (ordinaryStep (st.fields, st.offset) stmt).1 ∧
      (stmtStep st stmt).offset = (ordinaryStep (st.fields, st.offset) stmt).2 := by
  simp only [stmtStep, ordinaryStep]
  split <;> exact ⟨rfl, rfl⟩

/-! Facts about the schema parser and name heuristics. -/

/-- The name path of the schema parser undoes the emitter suffix strip when
the record name ends in `Data`. -/
theorem toPacketId_toRecordName (n : List Char)
    (h : (str "Data").isSuffixOf n = true) : toRecordName (toPacketId n) = n := by
  obtain ⟨t, rfl⟩ := List.isSuffixOf_iff_suffix.mp h
  unfold toPacketId toRecordName
  rw [if_pos h]
  have hlen : (t ++ str "Data").length - 4 = t.length := by
    simp [str]
  rw [hlen, List.take_left]

/-- Field sizes split into the header-named part and the schema-visible part. -/
theorem sumSizes_filter_split (l : List Field) :
    sumSizes l = sumSizes (l.filter (fun f => f.name == str "header")) +
      sumSizes (schemaVisible l) := by
  induction l with
  | nil => rfl
  | cons f t ih =>
    unfold schemaVisible at ih ⊢
    by_cases h : f.name = str "header"
    · have hb : (f.name == str "header") = true := by simp [h]
      have hv : decide (f.name ≠ str "header") = false := by simp [h]
      simp only [sumSizes_cons, List.filter_cons, hb, if_true, hv,
        Bool.false_eq_true, if_false, sumSizes_cons, ih]
      omega
    · have hb : (f.name == str "header") = false := by simp [h]
      have hv : decide (f.name ≠ str "header") = true := by simp [h]
      simp only [sumSizes_cons, List.filter_cons, hb, Bool.false_eq_true,
        if_false, hv, if_true, sumSizes_cons, ih]
      omega

/-! Concrete inputs used by counterexamples and witnesses. -/

/-- Declaration source with the conventional 4-byte header member. -/
def exIMU : List (List Char) :=
  [ str "struct __attribute__((packed)) IMUData",
    [lb],
    str "    char header[4] = " ++ [lb] ++ [sq, 'I', sq, ',', sq, 'M', sq, ',',
      sq, 'U', sq, ',', sq, '\\', '0', sq] ++ [rb, ';'],
    str "    float accel_x;",
    str "    float accel_y;",
    str "    uint32_t timestamp;",
    [rb, ';'] ]

/-- The record that parsing `exIMU` produces. -/
def sIMU : StructDef :=
  ⟨str "IMUData",
    [⟨str "header", str "char", true, 4, 0⟩,
      ⟨str "accel_x", str "float", false, 0, 4⟩,
      ⟨str "accel_y", str "float", false, 0, 8⟩,
      ⟨str "timestamp", str "uint32_t", false, 0, 12⟩],
    str "IMU", 16⟩

/-- Declaration source with a 2-byte header member. -/
def exShortHeader : List (List Char) :=
  [ str "struct __attribute__((packed)) TData",
    [lb],
    str "    char header[2] = " ++ [lb] ++ [sq, 'A', sq, ',', sq, 'B', sq] ++ [rb, ';'],
    str "    float x;",
    [rb, ';'] ]

/-- Declaration source that ends inside an open declaration body. -/
def exOpen : List (List Char) :=
  [str "struct __attribute__((packed)) A", [lb], str "    int x;"]

/-- A complete one-line declaration. -/
def exGPS : List (List Char) :=
  [str "struct __attribute__((packed)) GPSData " ++ [lb] ++
    str " double lat; double lon; " ++ [rb, ';']]

/-- A schema document with one packet and an explicit size_check. -/
def docSized : YamlDoc :=
  ⟨[⟨str "IMU", some (str "IMU"), 16, str "time",
      some [⟨str "x", str "float", 4⟩]⟩]⟩

/-- A schema document with a five-character header string. -/
def docLongTag : YamlDoc :=
  ⟨[⟨str "X", some (str "ABCDE"), 8, str "time",
      some [⟨str "x", str "float", 4⟩]⟩]⟩

/-- A schema document with two fields sharing one offset. -/
def docTie : YamlDoc :=
  ⟨[⟨str "T", none, 8, str "time",
      some [⟨str "b", str "int", 4⟩, ⟨str "a", str "int", 0⟩,
        ⟨str "c", str "char", 0⟩]⟩]⟩

/-- The packet of `docTie`. -/
def pktTie : YamlPacket :=
  ⟨str "T", none, 8, str "time",
    some [⟨str "b", str "int", 4⟩, ⟨str "a", str "int", 0⟩,
      ⟨str "c", str "char", 0⟩]⟩

/-- Header-setting member statement whose member is not named `header`. -/
def stmtMyHeader : List Char :=
  str "char my_header[2] = " ++ [lb] ++ [sq, 'A', sq, ',', sq, 'B', sq] ++ [rb]

/-! Claim C1. -/

/-- Claim C1, counterexample: the Declaration Parser keeps the `header` member
in the `fields` list (converter.py has no skip in lines 126-150; its own
comment at lines 146-148 notes that generate_yaml filters it instead), so a
`header`-named field is present after parsing a declaration whose body has a
`header` array member with an initializer. -/
theorem C1_counterexample :
    (parse_header_file exIMU).any
        (fun s => s.fields.any (fun f => f.name == str "header")) = true ∧
      (parse_header_file exIMU).map (fun s => s.fields.map Field.name) =
        [[str "header", str "accel_x", str "accel_y", str "timestamp"]] := by
  constructor
  · decide
  · decide

/-- Claim C1, amended: the `header` member is excluded only by the Schema
Emitter: no field entry of any document produced by generate_yaml is named
`header`; the Declaration Parser itself keeps the member among the fields. -/
theorem C1_amended (structs : List StructDef) :
    ∀ pkt ∈ (generate_yaml structs).packets, ∀ f ∈ pkt.fields.getD [],
      f.name ≠ str "header" := by
  intro pkt hpkt f hf
  unfold generate_yaml at hpkt
  obtain ⟨s, _, rfl⟩ := List.mem_map.mp hpkt
  unfold genPacket at hf
  simp only [Option.getD_some] at hf
  obtain ⟨g, hg, rfl⟩ := List.mem_map.mp hf
  have := List.mem_filter.mp hg
  simpa using this.2

/-- Claim C1, witness for the amended theorem at a concrete record. -/
theorem C1_witness :
    (⟨str "accel_x", str "float", 4⟩ : YamlField).name ≠ str "header" :=
  C1_amended [sIMU] (genPacket sIMU) (by decide) ⟨str "accel_x", str "float", 4⟩
    (by decide)

/-! Claim C3. -/

/-- Claim C3, counterexample: a declaration whose header member is
`char header[2]` yields a non-empty header_tag `AB` but a total size of
2 + 4 = 6, not 4 plus the schema-visible sum 4 = 8. -/
theorem C3_counterexample :
    (parse_header_file exShortHeader).map
        (fun s => (s.header_string, s.size, 4 + sumSizes (schemaVisible s.fields))) =
      [(str "AB", 6, 8)] ∧ (6 : Nat) ≠ 8 := by
  constructor
  · decide
  · decide

/-- Claim C3, amended: the total size of every record of the Declaration
Parser is the sum of the sizes of all its parsed fields, the header member
included; it equals 4 plus the sum of the schema-visible field sizes exactly
when the header-named fields contribute 4 bytes (as the conventional
`char header[4]` does), regardless of whether header_tag is empty. -/
theorem C3_amended (L : List (List Char)) (s : StructDef)
    (hs : s ∈ parse_header_file L) :
    s.size = sumSizes s.fields ∧
      (sumSizes (s.fields.filter (fun f => f.name == str "header")) = 4 →
        s.size = 4 + sumSizes (schemaVisible s.fields)) := by
  have h := (parse_header_file_prop L s hs).2
  refine ⟨h, fun hh => ?_⟩
  rw [h, sumSizes_filter_split s.fields, hh]

/-- Claim C3, witness at the parsed IMU record. -/
theorem C3_witness :
    sIMU.size = sumSizes sIMU.fields ∧
      (sumSizes (sIMU.fields.filter (fun f => f.name == str "header")) = 4 →
        sIMU.size = 4 + sumSizes (schemaVisible sIMU.fields)) :=
  C3_amended exIMU sIMU (by decide)

/-! Claim C4. -/

/-- Claim C4, counterexample: for a document with size_check 16, the Schema
Parser returns a record of size 0; it does not read size_check at all. -/
theorem C4_counterexample :
    (parse_yaml_file docSized).map StructDef.size = [0] ∧
      docSized.packets.map YamlPacket.size_check = [16] ∧ (0 : Nat) ≠ 16 := by
  refine ⟨?_, ?_, ?_⟩ <;> decide

/-- Claim C4, amended: on the reverse path the Schema Parser neither reads
size_check nor recomputes a size from the fields: every record it returns has
the StructDef constructor default size 0, and changing size_check in a packet
does not change the parse at all. -/
theorem C4_amended :
    (∀ (d : YamlDoc) (s : StructDef), s ∈ parse_yaml_file d → s.size = 0) ∧
      ∀ (p : YamlPacket) (v : Nat),
        parsePacket ⟨p.id, p.header_string, v, p.time_field, p.fields⟩ =
          parsePacket p := by
  constructor
  · intro d s hs
    unfold parse_yaml_file at hs
    obtain ⟨p, _, rfl⟩ := List.mem_map.mp hs
    rfl
  · intro p v
    rfl

/-- Claim C4, witness at the concrete sized document. -/
theorem C4_witness :
    (parsePacket ⟨str "IMU", some (str "IMU"), 16, str "time",
      some [⟨str "x", str "float", 4⟩]⟩).size = 0 :=
  C4_amended.1 docSized _ (by decide)

/-! Claim C5. -/

/-- Claim C5, counterexample: input ending with nonzero brace balance inside
a declaration makes parse_header_file return normally with the open
declaration silently dropped: the result is the empty record list, not a
fatal error (the Python loop simply ends; nothing in parse_header_file after
the file is opened can raise). -/
theorem C5_counterexample :
    parse_header_file exOpen = [] ∧
      (exOpen.foldl pstep initPState).in_struct = true ∧
      (exOpen.foldl pstep initPState).brace_count = 1 := by
  refine ⟨?_, ?_, ?_⟩ <;> decide

/-- Claim C5, amended: when the input ends while a declaration is still open
(the machine stays inside the declaration through the whole suffix), the
parser returns normally: the machine is still inside the declaration at end
of input, and the output is exactly the records of the prefix; the
unterminated declaration is silently dropped, no error is raised. -/
theorem C5_amended (L1 L2 : List (List Char))
    (h1 : staysOpen (L1.foldl pstep initPState) L2 = true) (h2 : L2 ≠ []) :
    ((L1 ++ L2).foldl pstep initPState).in_struct = true ∧
      parse_header_file (L1 ++ L2) = parse_header_file L1 := by
  have hsplit : (L1 ++ L2).foldl pstep initPState =
      L2.foldl pstep (L1.foldl pstep initPState) := List.foldl_append _ _ _ _
  obtain ⟨hs, hi⟩ := staysOpen_foldl L2 (L1.foldl pstep initPState) h1
  constructor
  · rw [hsplit]; exact hi h2
  · unfold parse_header_file
    rw [hsplit, hs]

/-- Claim C5, witness: one complete declaration followed by an unterminated
one parses to exactly the records of the complete prefix. -/
theorem C5_witness :
    ((exGPS ++ exOpen).foldl pstep initPState).in_struct = true ∧
      parse_header_file (exGPS ++ exOpen) = parse_header_file exGPS :=
  C5_amended exGPS exOpen (by decide) (by decide)

/-! Claim C6. -/

/-- Claim C6, counterexample: a record named `GPS` (no `Data` suffix) comes
back from the emit-then-parse name pair as `GPSData`, not unchanged. -/
theorem C6_counterexample :
    (parse_yaml_file (generate_yaml [⟨str "GPS", [], [], 0⟩])).map StructDef.name =
        [str "GPSData"] ∧ str "GPSData" ≠ str "GPS" := by
  constructor
  · decide
  · decide

/-- Claim C6, amended: the packet-identifier map followed by the schema
parser name reconstruction returns the record name unchanged exactly for
names that do end in `Data` (they lose the suffix and get it re-added);
a name without the suffix instead gains one. -/
theorem C6_amended (s : StructDef) (h : (str "Data").isSuffixOf s.name = true) :
    (parse_yaml_file (generate_yaml [s])).map StructDef.name = [s.name] := by
  simp only [parse_yaml_file, generate_yaml, List.map_map, List.map_cons,
    List.map_nil, Function.comp]
  show [toRecordName (toPacketId s.name)] = [s.name]
  rw [toPacketId_toRecordName s.name h]

/-- Claim C6, witness at the IMU record. -/
theorem C6_witness :
    (parse_yaml_file (generate_yaml [sIMU])).map StructDef.name = [sIMU.name] :=
  C6_amended sIMU (by decide)

/-! Claim C8. -/

/-- Claim C8, confirmed: every field list the Declaration Parser produces
starts at cursor 0, each later field sits at the previous offset plus the
previous size, and offsets are non-decreasing in list order. -/
theorem C8_offsets (L : List (List Char)) (s : StructDef)
    (hs : s ∈ parse_header_file L) :
    chainedFrom 0 s.fields ∧
      List.Pairwise (fun a b => a.offset ≤ b.offset) s.fields := by
  have h := (parse_header_file_prop L s hs).1
  exact ⟨h, chainedFrom_pairwise s.fields 0 h⟩

/-- Claim C8, witness at the parsed IMU record. -/
theorem C8_witness :
    chainedFrom 0 sIMU.fields ∧
      List.Pairwise (fun a b => a.offset ≤ b.offset) sIMU.fields :=
  C8_offsets exIMU sIMU (by decide)

/-! Claim C9. -/

/-- Claim C9, confirmed: for every packet descriptor the Schema Parser
returns its record with fields sorted by offset ascending, and the sort is
stable: at every offset value the filtered sublist equals the input order.
Python `list.sort` is a stable ascending key sort, embedded here as the
stable insertion sort `sortFields`, which any stable sort extensionally
equals. -/
theorem C9_sorted_stable (d : YamlDoc) (p : YamlPacket) (hp : p ∈ d.packets) :
    parsePacket p ∈ parse_yaml_file d ∧
      List.Pairwise (fun a b => a.offset ≤ b.offset) (parsePacket p).fields ∧
      ∀ v : Nat, (parsePacket p).fields.filter (fun g => g.offset == v) =
        (rawYamlFields p).filter (fun g => g.offset == v) := by
  refine ⟨List.mem_map.mpr ⟨p, hp, rfl⟩, ?_, ?_⟩
  · exact sortFields_pairwise (rawYamlFields p)
  · intro v
    exact sortFields_filter (rawYamlFields p) v

/-- Claim C9, witness at a document with an offset tie: the two offset-0
fields keep their document order. -/
theorem C9_witness :
    parsePacket pktTie ∈ parse_yaml_file docTie ∧
      List.Pairwise (fun a b => a.offset ≤ b.offset) (parsePacket pktTie).fields ∧
      (parsePacket pktTie).fields.filter (fun g => g.offset == 0) =
        (rawYamlFields pktTie).filter (fun g => g.offset == 0) :=
  ⟨(C9_sorted_stable docTie pktTie (by decide)).1,
    (C9_sorted_stable docTie pktTie (by decide)).2.1,
    (C9_sorted_stable docTie pktTie (by decide)).2.2 0⟩

/-! Claim C10. -/

/-- Claim C10, confirmed: any member statement containing the substring
`header[` together with an equals sign sets the record header string to the
concatenated single-character quoted literals of that statement with all NUL
characters deleted; the last such statement wins over the rest of the body;
and the statement still receives exactly the ordinary field treatment of
converter.py lines 126-150. -/
theorem C10_header_any_member (l1 l2 : List (List Char)) (stmt : List Char)
    (acc : BodyState)
    (h1 : containsSub (str "header[") (replaceNl stmt) = true)
    (h2 : (replaceNl stmt).contains '=' = true)
    (h3 : ∀ u ∈ l2, ¬(containsSub (str "header[") (replaceNl u) = true ∧
        (replaceNl u).contains '=' = true)) :
    ((l1 ++ stmt :: l2).foldl stmtStep acc).header_string =
        nulStrip (findQuoted (replaceNl stmt)) ∧
      ∀ st : BodyState,
        (stmtStep st stmt).fields = (ordinaryStep (st.fields, st.offset) stmt).1 ∧
        (stmtStep st stmt).offset = (ordinaryStep (st.fields, st.offset) stmt).2 := by
  constructor
  · rw [List.foldl_append, List.foldl_cons,
      stmtStep_fold_header_keeps l2 h3 (stmtStep (l1.foldl stmtStep acc) stmt)]
    exact stmtStep_header_sets (l1.foldl stmtStep acc) stmt h1 h2
  · intro st
    exact stmtStep_fields_ordinary st stmt

/-- Claim C10, witness: the statement `char my_header[2] = ...` is not named
`header` yet sets the tag to `AB` and is processed as an ordinary field. -/
theorem C10_witness :
    (([] ++ stmtMyHeader :: []).foldl stmtStep ⟨[], 0, []⟩).header_string =
        nulStrip (findQuoted (replaceNl stmtMyHeader)) ∧
      (stmtStep ⟨[], 0, []⟩ stmtMyHeader).fields =
        (ordinaryStep (([] : List Field), 0) stmtMyHeader).1 ∧
      (stmtStep ⟨[], 0, []⟩ stmtMyHeader).offset =
        (ordinaryStep (([] : List Field), 0) stmtMyHeader).2 :=
  ⟨(C10_header_any_member [] [] stmtMyHeader ⟨[], 0, []⟩ (by decide) (by decide)
      (by intro u hu; cases hu)).1,
    (C10_header_any_member [] [] stmtMyHeader ⟨[], 0, []⟩ (by decide) (by decide)
      (by intro u hu; cases hu)).2 ⟨[], 0, []⟩⟩

/-! Claim C7. -/

/-- Record with a two-character tag emitted with a synthetic header. -/
def sTag : StructDef :=
  ⟨str "XData", [⟨str "x", str "float", false, 0, 4⟩], str "AB", 0⟩

/-- Claim C7, counterexample: a record with the five-character header string
`ABCDE` (producible by the Schema Parser from a document) satisfies the
emission condition but its initializer has five slots, not exactly four:
Python pads with a negative repetition, which is empty. -/
theorem C7_counterexample :
    (parse_yaml_file docLongTag).map
        (fun s => (emitsHeaderLine s, (headerSlots s.header_string).length)) =
      [(true, 5)] ∧ (5 : Nat) ≠ 4 := by
  constructor
  · decide
  · decide

/-- Claim C7, amended: generate_header emits the synthetic
`char header[4]` member, first in the body, exactly when the first field
offset is at least 4 and the header string is non-empty; the initializer
lists one quoted character literal per tag character followed by
null-character literals up to four slots, so it has exactly four slots when
the tag has at most four characters and one slot per character otherwise. -/
theorem C7_header_emission (s : StructDef) :
    (emitsHeaderLine s = true ↔
        ((∃ f t, s.fields = f :: t ∧ 4 ≤ f.offset) ∧ s.header_string ≠ [])) ∧
      (headerSlots s.header_string).length = max 4 s.header_string.length ∧
      (headerSlots s.header_string).take s.header_string.length =
        s.header_string.map quoteLit ∧
      (headerSlots s.header_string).drop s.header_string.length =
        List.replicate (4 - s.header_string.length) nullLit ∧
      (emitsHeaderLine s = true →
        structLines s = (str "struct __attribute__((packed)) " ++ s.name) ::
          [lb] :: headerLine s.header_string ::
            (s.fields.map fieldLine ++ [[rb, ';'], []])) := by
  refine ⟨?_, ?_, ?_, ?_, ?_⟩
  · unfold emitsHeaderLine firstOffset
    cases hf : s.fields with
    | nil =>
      simp only [hf]
      constructor
      · intro h; simp at h
      · rintro ⟨⟨f, t, he, _⟩, _⟩; cases he
    | cons f t =>
      have hiff : (!s.header_string.isEmpty) = true ↔ s.header_string ≠ [] := by
        cases hh : s.header_string <;> simp
      simp only [hf, Bool.and_eq_true, decide_eq_true_eq, hiff]
      constructor
      · rintro ⟨h4, hne⟩
        exact ⟨⟨f, t, rfl, h4⟩, hne⟩
      · rintro ⟨⟨f2, t2, he, h4⟩, hne⟩
        obtain ⟨rfl, rfl⟩ := List.cons_eq_cons.mp he
        exact ⟨h4, hne⟩
  · simp only [headerSlots, List.length_append, List.length_map,
      List.length_replicate]
    omega
  · unfold headerSlots
    rw [show s.header_string.length = (s.header_string.map quoteLit).length from
      (List.length_map _ _).symm, List.take_left]
  · unfold headerSlots
    rw [show s.header_string.length = (s.header_string.map quoteLit).length from
      (List.length_map _ _).symm, List.drop_left]
  · intro h
    simp [structLines, h]

/-- Claim C7, witness at a concrete record with a two-character tag. -/
theorem C7_witness :
    emitsHeaderLine sTag = true ∧
      structLines sTag = (str "struct __attribute__((packed)) " ++ sTag.name) ::
        [lb] :: headerLine sTag.header_string ::
          (sTag.fields.map fieldLine ++ [[rb, ';'], []]) :=
  ⟨by decide, (C7_header_emission sTag).2.2.2.2 (by decide)⟩

/-! Canonical declaration forms for the round-trip claim. -/

/-- A non-empty string of word characters. -/
def wordStr (l : List Char) : Prop := l ≠ [] ∧ ∀ c ∈ l, isWordChar c = true

/-- Canonical-form conditions on one field: identifier name and type, and not
named `header` (the Schema Emitter would drop such a field). -/
def fieldWf (f : Field) : Prop :=
  wordStr f.name ∧ wordStr f.type_name ∧ f.name ≠ str "header"

/-- Canonical-form conditions on a header tag: word characters only. -/
def tagWf (t : List Char) : Prop := ∀ c ∈ t, isWordChar c = true

/-- Canonical-form conditions on a record handed to the Declaration Emitter. -/
def renderWf (s : StructDef) : Prop :=
  wordStr s.name ∧ (∀ f ∈ s.fields, fieldWf f) ∧ tagWf s.header_string

/-- Fields with offsets recomputed from a running cursor, exactly as the
Declaration Parser recomputes them after a round trip. -/
def reassignFrom (base : Nat) : List Field → List Field
  | [] => []
  | f :: t => ⟨f.name, f.type_name, false, 0, base⟩ ::
      reassignFrom (base + typeSize f.type_name) t

/-- The parsed synthetic header member. -/
def headerField : Field := ⟨str "header", str "char", true, 4, 0⟩

/-- Sum of the scalar widths of a field list. -/
def scalarSizes (l : List Field) : Nat := (l.map (fun f => typeSize f.type_name)).sum

/-- The record the Declaration Parser recovers from the emitted declaration
of `s`: the synthetic header member reappears as an ordinary parsed field
when it was emitted, offsets are recomputed, and the tag survives only
through the header initializer. -/
def expandStruct (s : StructDef) : StructDef :=
  if emitsHeaderLine s then
    ⟨s.name, headerField :: reassignFrom 4 s.fields, s.header_string,
      4 + scalarSizes s.fields⟩
  else ⟨s.name, reassignFrom 0 s.fields, [], scalarSizes s.fields⟩

/-- The header member statement as the parser receives it after splitting. -/
def hdrStmtOf (tag : List Char) : List Char :=
  str "char header[4] = " ++ [lb] ++ pyJoin (str ", ") (headerSlots tag) ++ [rb]

/-- pyJoin on a cons with a non-empty tail. -/
theorem pyJoin_cons_ne (sep x : List Char) (rest : List (List Char)) (h : rest ≠ []) :
    pyJoin sep (x :: rest) = x ++ sep ++ pyJoin sep rest := by
  cases rest with
  | nil => exact absurd rfl h
  | cons y t => rfl

/-- Character classification for the header initializer text. -/
theorem mem_slotsStr (tag : List Char) (c : Char) (htag : tagWf tag)
    (h : c ∈ pyJoin (str ", ") (headerSlots tag)) :
    c = ',' ∨ c = ' ' ∨ c = sq ∨ c = '\\' ∨ c = '0' ∨ isWordChar c = true := by
  rcases mem_pyJoin _ _ _ h with hsep | ⟨x, hx, hcx⟩
  · have hsep2 : c = ',' ∨ c = ' ' := by simpa [str] using hsep
    rcases hsep2 with h | h
    · exact Or.inl h
    · exact Or.inr (Or.inl h)
  · unfold headerSlots at hx
    rcases List.mem_append.mp hx with hx | hx
    · obtain ⟨d, hd, rfl⟩ := List.mem_map.mp hx
      have hcx2 : c = sq ∨ c = d := by
        rcases (by simpa [quoteLit] using hcx : c = sq ∨ c = d ∨ c = sq) with h | h | h
        · exact Or.inl h
        · exact Or.inr h
        · exact Or.inl h
      rcases hcx2 with h | h
      · exact Or.inr (Or.inr (Or.inl h))
      · exact Or.inr (Or.inr (Or.inr (Or.inr (Or.inr (h ▸ htag d hd)))))
    · have hxn := (List.mem_replicate.mp hx).2
      subst hxn
      have hcx2 : c = sq ∨ c = '\\' ∨ c = '0' := by
        rcases (by simpa [nullLit] using hcx : c = sq ∨ c = '\\' ∨ c = '0' ∨ c = sq) with
          h | h | h | h
        · exact Or.inl h
        · exact Or.inr (Or.inl h)
        · exact Or.inr (Or.inr h)
        · exact Or.inl h
      rcases hcx2 with h | h | h
      · exact Or.inr (Or.inr (Or.inl h))
      · exact Or.inr (Or.inr (Or.inr (Or.inl h)))
      · exact Or.inr (Or.inr (Or.inr (Or.inr (Or.inl h))))

/-- A fixed character that is none of the initializer candidates does not
occur in the initializer text. -/
theorem not_mem_slotsStr (tag : List Char) (c : Char) (htag : tagWf tag)
    (h1 : c ≠ ',') (h2 : c ≠ ' ') (h3 : c ≠ sq) (h4 : c ≠ '\\') (h5 : c ≠ '0')
    (h6 : isWordChar c = false) :
    c ∉ pyJoin (str ", ") (headerSlots tag) := by
  intro hmem
  rcases mem_slotsStr tag c htag hmem with h | h | h | h | h | h
  · exact h1 h
  · exact h2 h
  · exact h3 h
  · exact h4 h
  · exact h5 h
  · rw [h6] at h; cases h

/-- Scanning a null-character literal reduces to scanning from its closing
quote. -/
theorem findQuoted_pad (r : List Char) :
    findQuoted (nullLit ++ r) = findQuoted (sq :: r) := by
  show findQuoted (sq :: '\\' :: '0' :: sq :: r) = findQuoted (sq :: r)
  rw [findQuoted_sq_fail ('\\' :: '0' :: sq :: r)
    (by intro d e r2 he hx; cases he; exact (by decide : ('0' : Char) ≠ sq) hx.1)]
  rw [findQuoted_cons_ne '\\' _ (by decide), findQuoted_cons_ne '0' _ (by decide)]

/-- Scanning a quote followed by the separator skips past the separator. -/
theorem findQuoted_sq_comma (r : List Char) :
    findQuoted (sq :: ',' :: ' ' :: r) = findQuoted r := by
  rw [findQuoted_sq_fail (',' :: ' ' :: r)
    (by intro d e r2 he hx; cases he; exact (by decide : (' ' : Char) ≠ sq) hx.1)]
  rw [findQuoted_cons_ne ',' _ (by decide), findQuoted_cons_ne ' ' _ (by decide)]

/-- Scanning a quote followed by the closing brace finds nothing. -/
theorem findQuoted_sq_rb : findQuoted (sq :: [rb]) = [] := by decide

/-- The padding block of the initializer contributes no captures. -/
theorem findQuoted_pads (k : Nat) :
    findQuoted (pyJoin (str ", ") (List.replicate k nullLit) ++ [rb]) = [] := by
  induction k with
  | zero =>
    show findQuoted [rb] = []
    decide
  | succ k ih =>
    cases k with
    | zero =>
      show findQuoted (nullLit ++ [rb]) = []
      rw [findQuoted_pad [rb], findQuoted_sq_rb]
    | succ k2 =>
      rw [List.replicate_succ,
        pyJoin_cons_ne _ nullLit (List.replicate (k2 + 1) nullLit) (by simp)]
      have hshape : nullLit ++ str ", " ++
          pyJoin (str ", ") (List.replicate (k2 + 1) nullLit) ++ [rb] =
          nullLit ++ (',' :: ' ' ::
            (pyJoin (str ", ") (List.replicate (k2 + 1) nullLit) ++ [rb])) := by
        simp [str]
      rw [hshape, findQuoted_pad, findQuoted_sq_comma]
      exact ih

/-- The initializer of a word-character tag scans back to exactly the tag. -/
theorem findQuoted_slots (tag : List Char) (htag : tagWf tag) :
    ∀ k : Nat,
      findQuoted (pyJoin (str ", ") (tag.map quoteLit ++ List.replicate k nullLit)
        ++ [rb]) = tag := by
  induction tag with
  | nil =>
    intro k
    simpa using findQuoted_pads k
  | cons c t ih =>
    intro k
    have hc : c ≠ sq := word_ne c sq (htag c (List.mem_cons_self c t)) (by decide)
    have htagt : tagWf t := fun x hx => htag x (List.mem_cons_of_mem c hx)
    by_cases hrest : t.map quoteLit ++ List.replicate k nullLit = []
    · rw [List.map_cons, List.cons_append, hrest]
      obtain ⟨ht, hk⟩ := List.append_eq_nil.mp hrest
      have ht2 : t = [] := by
        cases t with
        | nil => rfl
        | cons a b => simp at ht
      have hk2 : k = 0 := by
        cases k with
        | zero => rfl
        | succ n => simp [List.replicate_succ] at hk
      subst ht2; subst hk2
      show findQuoted (sq :: c :: sq :: [rb]) = [c]
      rw [findQuoted_capture c [rb] hc]
      simp
      decide
    · rw [List.map_cons, List.cons_append,
        pyJoin_cons_ne _ (quoteLit c) _ hrest]
      have hshape : quoteLit c ++ str ", " ++
          pyJoin (str ", ") (t.map quoteLit ++ List.replicate k nullLit) ++ [rb] =
          sq :: c :: sq :: (',' :: ' ' ::
            (pyJoin (str ", ") (t.map quoteLit ++ List.replicate k nullLit) ++ [rb])) := by
        simp [quoteLit, str]
      rw [hshape, findQuoted_capture c _ hc,
        findQuoted_cons_ne ',' _ (by decide), findQuoted_cons_ne ' ' _ (by decide)]
      rw [ih htagt k]

/-- Characters of the header statement come from its four segments. -/
theorem mem_hdrStmt_cases (tag : List Char) (c : Char) (h : c ∈ hdrStmtOf tag) :
    c ∈ str "char header[4] = " ∨ c = lb ∨
      c ∈ pyJoin (str ", ") (headerSlots tag) ∨ c = rb := by
  unfold hdrStmtOf at h
  rcases List.mem_append.mp h with h | h
  · rcases List.mem_append.mp h with h | h
    · rcases List.mem_append.mp h with h | h
      · exact Or.inl h
      · exact Or.inr (Or.inl (List.mem_singleton.mp h))
    · exact Or.inr (Or.inr (Or.inl h))
  · exact Or.inr (Or.inr (Or.inr (List.mem_singleton.mp h)))

/-- The header statement of a word tag has no newline. -/
theorem hdrStmt_no_nl (tag : List Char) (htag : tagWf tag) : '\n' ∉ hdrStmtOf tag := by
  intro hmem
  rcases mem_hdrStmt_cases tag '\n' hmem with h | h | h | h
  · revert h; decide
  · revert h; decide
  · exact not_mem_slotsStr tag '\n' htag (by decide) (by decide) (by decide)
      (by decide) (by decide) (by decide) h
  · revert h; decide

/-- The header statement of a word tag has no semicolon. -/
theorem hdrStmt_no_semi (tag : List Char) (htag : tagWf tag) : ';' ∉ hdrStmtOf tag := by
  intro hmem
  rcases mem_hdrStmt_cases tag ';' hmem with h | h | h | h
  · revert h; decide
  · revert h; decide
  · exact not_mem_slotsStr tag ';' htag (by decide) (by decide) (by decide)
      (by decide) (by decide) (by decide) h
  · revert h; decide

/-- Effect of one header member statement: tag set from the initializer,
field `header` of type `char`, array length 4, appended at the cursor. -/
theorem stmtStep_headerStmt (st : BodyState) (tag : List Char) (htag : tagWf tag) :
    stmtStep st (hdrStmtOf tag) =
      ⟨st.fields ++ [⟨str "header", str "char", true, 4, st.offset⟩],
        st.offset + 4, tag⟩ := by
  have hnl : replaceNl (hdrStmtOf tag) = hdrStmtOf tag :=
    replaceNl_of_no_nl _ (hdrStmt_no_nl tag htag)
  have hc1 : containsSub (str "header[") (hdrStmtOf tag) = true := by
    have hshape : hdrStmtOf tag = str "char " ++ str "header[" ++
        (str "4] = " ++ [lb] ++ pyJoin (str ", ") (headerSlots tag) ++ [rb]) := by
      unfold hdrStmtOf
      rw [show str "char header[4] = " =
        str "char " ++ (str "header[" ++ str "4] = ") from by decide]
      simp [List.append_assoc]
    rw [hshape]
    exact containsSub_middle _ _ _
  have hc2 : (hdrStmtOf tag).contains '=' = true := by
    have hm : '=' ∈ hdrStmtOf tag := by
      unfold hdrStmtOf
      refine List.mem_append.mpr (Or.inl ?_)
      refine List.mem_append.mpr (Or.inl ?_)
      refine List.mem_append.mpr (Or.inl ?_)
      decide
    exact List.elem_eq_true_of_mem hm
  have hfq : nulStrip (findQuoted (hdrStmtOf tag)) = tag := by
    have hshape : hdrStmtOf tag = (str "char header[4] = " ++ [lb]) ++
        (pyJoin (str ", ") (headerSlots tag) ++ [rb]) := by
      unfold hdrStmtOf
      simp [List.append_assoc]
    rw [hshape, findQuoted_no_quote _ _ (by decide)]
    rw [show headerSlots tag =
      tag.map quoteLit ++ List.replicate (4 - tag.length) nullLit from rfl]
    rw [findQuoted_slots tag htag (4 - tag.length)]
    refine nulStrip_of_no_nul tag (fun hm => ?_)
    have := htag _ hm
    revert this; decide
  have hdecl : pstrip ((hdrStmtOf tag).takeWhile (fun c => c != '=')) =
      str "char header[4]" := by
    have hshape : hdrStmtOf tag = str "char header[4] " ++ '=' ::
        (' ' :: ([lb] ++ pyJoin (str ", ") (headerSlots tag) ++ [rb])) := by
      unfold hdrStmtOf
      rw [show str "char header[4] = " =
        str "char header[4] " ++ '=' :: [' '] from by decide]
      simp [List.append_assoc]
    rw [hshape, takeWhile_to_eq _ _ (by decide)]
    decide
  have hws : wsplit (str "char header[4]") = [str "char", str "header[4]"] := by decide
  simp only [stmtStep, hnl, hc1, hc2, Bool.and_self, if_true, hdecl, hws, hfq]
  norm_num
  refine ⟨by decide, ?_⟩
  simp only [Field.size]
  decide

/-- Effect of one ordinary member statement with identifier type and name:
the header string is untouched and a scalar field is appended at the cursor. -/
theorem stmtStep_fieldStmt (st : BodyState) (t n : List Char)
    (ht : wordStr t) (hn : wordStr n) :
    stmtStep st (t ++ ' ' :: n) =
      ⟨st.fields ++ [⟨n, t, false, 0, st.offset⟩],
        st.offset + typeSize t, st.header_string⟩ := by
  obtain ⟨htne, htw⟩ := ht
  obtain ⟨hnne, hnw⟩ := hn
  have hmem_cases : ∀ c ∈ t ++ ' ' :: n, isWordChar c = true ∨ c = ' ' := by
    intro c hc
    rcases List.mem_append.mp hc with hc | hc
    · exact Or.inl (htw c hc)
    · rcases List.mem_cons.mp hc with rfl | hc
      · exact Or.inr rfl
      · exact Or.inl (hnw c hc)
  have hnl : replaceNl (t ++ ' ' :: n) = t ++ ' ' :: n := by
    refine replaceNl_of_no_nl _ (fun hm => ?_)
    rcases hmem_cases '\n' hm with h | h
    · revert h; decide
    · revert h; decide
  have hc1 : containsSub (str "header[") (t ++ ' ' :: n) = false := by
    refine containsSub_eq_false _ _ '[' (by decide) (fun hm => ?_)
    rcases hmem_cases '[' hm with h | h
    · revert h; decide
    · revert h; decide
  have hb : (containsSub (str "header[") (t ++ ' ' :: n) &&
      (t ++ ' ' :: n).contains '=') = false := by
    rw [hc1]; rfl
  have heq : '=' ∉ t ++ ' ' :: n := by
    intro hm
    rcases hmem_cases '=' hm with h | h
    · revert h; decide
    · revert h; decide
  have hdecl : pstrip ((t ++ ' ' :: n).takeWhile (fun c => c != '=')) =
      t ++ ' ' :: n := by
    rw [takeWhile_no_eq _ heq]
    refine pstrip_ws_core [] (t ++ ' ' :: n) (by intro c hc; cases hc) ?_ ?_
    · cases t with
      | nil => exact absurd rfl htne
      | cons c r =>
        show pyIsSpace c = false
        exact word_not_space c (htw c (List.mem_cons_self c r))
    · have hrev : (t ++ ' ' :: n).reverse = n.reverse ++ ' ' :: t.reverse := by
        simp
      rw [hrev]
      cases hrn : n.reverse with
      | nil =>
        rw [List.reverse_eq_nil_iff] at hrn
        exact absurd hrn hnne
      | cons c r =>
        show pyIsSpace c = false
        refine word_not_space c (hnw c ?_)
        have hcm : c ∈ n.reverse := by rw [hrn]; exact List.mem_cons_self c r
        exact List.mem_reverse.mp hcm
  have hws : wsplit (t ++ ' ' :: n) = [t, n] := by
    refine wsplit_two t n htne hnne ?_ ?_
    · intro c hc; exact word_not_space c (htw c hc)
    · intro c hc; exact word_not_space c (hnw c hc)
  have hbr : '[' ∉ n := fun hm => by
    have hw := hnw '[' hm
    revert hw; decide
  simp only [stmtStep, hnl, hb, Bool.false_eq_true, if_false, hdecl, hws]
  norm_num
  simp [hbr, Field.size, pyJoin]

/-- Folding the statements of canonical fields appends the reassigned fields
and advances the cursor by the scalar widths. -/
theorem foldl_fieldStmts (fields : List Field) (hfs : ∀ f ∈ fields, fieldWf f) :
    ∀ st : BodyState,
      (fields.map (fun f => f.type_name ++ ' ' :: f.name)).foldl stmtStep st =
        ⟨st.fields ++ reassignFrom st.offset fields,
          st.offset + scalarSizes fields, st.header_string⟩ := by
  induction fields with
  | nil =>
    intro st
    simp [reassignFrom, scalarSizes]
  | cons f rest ih =>
    intro st
    obtain ⟨hn, ht, _⟩ := hfs f (List.mem_cons_self f rest)
    rw [List.map_cons, List.foldl_cons,
      stmtStep_fieldStmt st f.type_name f.name ht hn,
      ih (fun x hx => hfs x (List.mem_cons_of_mem f hx))]
    show BodyState.mk _ _ _ = BodyState.mk _ _ _
    congr 1
    · show (st.fields ++ [⟨f.name, f.type_name, false, 0, st.offset⟩]) ++
        reassignFrom (st.offset + typeSize f.type_name) rest =
          st.fields ++ reassignFrom st.offset (f :: rest)
      rw [List.append_assoc]
      rfl
    · show (st.offset + typeSize f.type_name) + scalarSizes rest =
        st.offset + scalarSizes (f :: rest)
      unfold scalarSizes
      simp
      omega

/-- Splitting, stripping and filtering the emitted field lines yields exactly
one canonical statement per field. -/
theorem stmts_fields_aux (fields : List Field) (hfs : ∀ f ∈ fields, fieldWf f) :
    ((splitOnChar ';'
        (['\n'] ++ (fields.map (fun f => fieldLine f ++ ['\n'])).flatten)).map
          pstrip).filter (fun s => !s.isEmpty) =
      fields.map (fun f => f.type_name ++ ' ' :: f.name) := by
  induction fields with
  | nil =>
    rw [show (([] : List Field).map (fun f => fieldLine f ++ ['\n'])).flatten =
      [] from rfl]
    decide
  | cons f rest ih =>
    obtain ⟨⟨hnne, hnw⟩, ⟨htne, htw⟩, _⟩ := hfs f (List.mem_cons_self f rest)
    have hshape : ['\n'] ++ ((f :: rest).map (fun f => fieldLine f ++ ['\n'])).flatten =
        ('\n' :: str "    " ++ f.type_name ++ ' ' :: f.name) ++ ';' ::
          (['\n'] ++ (rest.map (fun f => fieldLine f ++ ['\n'])).flatten) := by
      simp only [List.map_cons, List.flatten_cons, fieldLine]
      simp [List.append_assoc]
    have hnosemi : ';' ∉ '\n' :: str "    " ++ f.type_name ++ ' ' :: f.name := by
      intro hm
      rcases List.mem_cons.mp hm with h | h
      · revert h; decide
      · rcases List.mem_append.mp h with h | h
        · rcases List.mem_append.mp h with h | h
          · revert h; decide
          · have := htw ';' h
            revert this; decide
        · rcases List.mem_cons.mp h with h | h
          · revert h; decide
          · have := hnw ';' h
            revert this; decide
    rw [hshape, splitOnChar_append ';' _ _ hnosemi, List.map_cons, List.filter_cons]
    have hstrip : pstrip ('\n' :: str "    " ++ f.type_name ++ ' ' :: f.name) =
        f.type_name ++ ' ' :: f.name := by
      have hshape2 : '\n' :: str "    " ++ f.type_name ++ ' ' :: f.name =
          ('\n' :: str "    ") ++ (f.type_name ++ ' ' :: f.name) := by
        simp [List.append_assoc]
      rw [hshape2]
      refine pstrip_ws_core _ _ (by decide) ?_ ?_
      · cases hct : f.type_name with
        | nil => exact absurd hct htne
        | cons c r =>
          show pyIsSpace c = false
          refine word_not_space c (htw c ?_)
          rw [hct]; exact List.mem_cons_self c r
      · have hrev : (f.type_name ++ ' ' :: f.name).reverse =
            f.name.reverse ++ ' ' :: f.type_name.reverse := by simp
        rw [hrev]
        cases hrn : f.name.reverse with
        | nil =>
          rw [List.reverse_eq_nil_iff] at hrn
          exact absurd hrn hnne
        | cons c r =>
          show pyIsSpace c = false
          refine word_not_space c (hnw c ?_)
          have hcm : c ∈ f.name.reverse := by rw [hrn]; exact List.mem_cons_self c r
          exact List.mem_reverse.mp hcm
    rw [hstrip]
    have hne2 : (f.type_name ++ ' ' :: f.name).isEmpty = false := by
      cases hct : f.type_name with
      | nil => exact absurd hct htne
      | cons c r => rfl
    rw [hne2]
    simp only [Bool.not_false, if_true]
    rw [ih (fun x hx => hfs x (List.mem_cons_of_mem f hx))]
    rfl

/-- parseStructBody on the emitted body with no header line. -/
theorem parseStructBody_noHeader (nm : List Char) (fields : List Field)
    (hfs : ∀ f ∈ fields, fieldWf f) :
    parseStructBody nm
        ('\n' :: (fields.map (fun f => fieldLine f ++ ['\n'])).flatten) =
      ⟨nm, reassignFrom 0 fields, [], scalarSizes fields⟩ := by
  unfold parseStructBody
  rw [show ('\n' :: (fields.map (fun f => fieldLine f ++ ['\n'])).flatten) =
    ['\n'] ++ (fields.map (fun f => fieldLine f ++ ['\n'])).flatten from rfl]
  simp only [stmts_fields_aux fields hfs]
  rw [foldl_fieldStmts fields hfs ⟨[], 0, []⟩]
  simp

/-- parseStructBody on the emitted body with the synthetic header line. -/
theorem parseStructBody_withHeader (nm tag : List Char) (fields : List Field)
    (htag : tagWf tag) (hfs : ∀ f ∈ fields, fieldWf f) :
    parseStructBody nm
        ('\n' :: headerLine tag ++ '\n' ::
          (fields.map (fun f => fieldLine f ++ ['\n'])).flatten) =
      ⟨nm, headerField :: reassignFrom 4 fields, tag, 4 + scalarSizes fields⟩ := by
  unfold parseStructBody
  have hshape : '\n' :: headerLine tag ++ '\n' ::
      (fields.map (fun f => fieldLine f ++ ['\n'])).flatten =
      ('\n' :: str "    " ++ hdrStmtOf tag) ++ ';' ::
        (['\n'] ++ (fields.map (fun f => fieldLine f ++ ['\n'])).flatten) := by
    unfold headerLine hdrStmtOf
    rw [show str "    char header[4] = " = str "    " ++ str "char header[4] = "
      from by decide]
    simp [List.append_assoc]
  have hnosemi : ';' ∉ '\n' :: str "    " ++ hdrStmtOf tag := by
    intro hm
    rcases List.mem_cons.mp hm with h | h
    · revert h; decide
    · rcases List.mem_append.mp h with h | h
      · revert h; decide
      · exact hdrStmt_no_semi tag htag h
  rw [hshape, splitOnChar_append ';' _ _ hnosemi, List.map_cons, List.filter_cons]
  have hstrip : pstrip ('\n' :: str "    " ++ hdrStmtOf tag) = hdrStmtOf tag := by
    have hshape2 : '\n' :: str "    " ++ hdrStmtOf tag =
        ('\n' :: str "    ") ++ hdrStmtOf tag := by simp
    rw [hshape2]
    refine pstrip_ws_core _ _ (by decide) ?_ ?_
    · show headNotSpace (str "char header[4] = " ++ [lb] ++
        pyJoin (str ", ") (headerSlots tag) ++ [rb])
      show pyIsSpace 'c' = false
      decide
    · show headNotSpace (hdrStmtOf tag).reverse
      have hrev : (hdrStmtOf tag).reverse = rb ::
          (str "char header[4] = " ++ [lb] ++
            pyJoin (str ", ") (headerSlots tag)).reverse := by
        unfold hdrStmtOf
        simp
      rw [hrev]
      show pyIsSpace rb = false
      decide
  rw [hstrip]
  rw [show (hdrStmtOf tag).isEmpty = false from rfl]
  simp only [Bool.not_false, if_true]
  simp only [stmts_fields_aux fields hfs, List.foldl_cons,
    stmtStep_headerStmt ⟨[], 0, []⟩ tag htag, List.nil_append, Nat.zero_add]
  rw [foldl_fieldStmts fields hfs ⟨[⟨str "header", str "char", true, 4, 0⟩], 4, tag⟩]
  show StructDef.mk _ _ _ _ = StructDef.mk _ _ _ _
  norm_num
  rfl

/-! Line-machine computation lemmas for the emitted declaration. -/

/-- Boolean contains is false off the members. -/
theorem contains_false_of_not_mem (l : List Char) (c : Char) (h : c ∉ l) :
    l.contains c = false := by
  simpa using h

/-- isSuffixOf is false when the pattern has a character the text lacks. -/
theorem isSuffixOf_false_of_not_mem (p l : List Char) (c : Char)
    (hc : c ∈ p) (hl : c ∉ l) : p.isSuffixOf l = false := by
  cases hs : p.isSuffixOf l with
  | false => rfl
  | true => exact absurd ((List.isSuffixOf_iff_suffix.mp hs).subset hc) hl

/-- A line with a visible non-space character and no slash is not skipped. -/
theorem stepSkip_false_of (line : List Char) (c : Char) (hc : c ∈ line)
    (hcs : pyIsSpace c = false) (hsl : '/' ∉ line) : stepSkip line = false := by
  have hnosub : containsSub (str "//") (pstrip line) = false :=
    containsSub_eq_false _ _ '/' (by decide)
      (fun hm => hsl (mem_pstrip line '/' hm))
  simp only [stepSkip]
  rw [hnosub]
  simp only [Bool.false_eq_true, if_false]
  cases hp : pstrip line with
  | nil =>
    exact absurd (pstrip_eq_nil_iff line |>.mp hp c hc) (by rw [hcs]; decide)
  | cons a t => rfl

/-- A skipped line leaves the machine state unchanged. -/
theorem pstep_skip (st : PState) (line : List Char) (h : stepSkip line = true) :
    pstep st line = st := by
  unfold pstep
  rw [if_pos h]

/-- The struct-start regex match on the emitted record line. -/
theorem matchStructAt_nameLine (nm : List Char) (hne : nm ≠ [])
    (hw : ∀ c ∈ nm, isWordChar c = true) :
    matchStructAt (str "struct __attribute__((packed)) " ++ nm) = some nm := by
  have hdrop : nm.dropWhile pyIsSpace = nm := by
    cases nm with
    | nil => rfl
    | cons c t =>
      rw [List.dropWhile_cons, word_not_space c (hw c (List.mem_cons_self c t))]
      simp
  have htake : nm.takeWhile isWordChar = nm := takeWhile_eq_self_of _ nm hw
  show (if (nm.dropWhile pyIsSpace).takeWhile isWordChar = [] then none
      else some ((nm.dropWhile pyIsSpace).takeWhile isWordChar)) = some nm
  rw [hdrop, htake, if_neg hne]

/-- Search finds a match at position zero. -/
theorem searchStruct_eq_some (l : List Char) (w : List Char)
    (h : matchStructAt l = some w) : searchStruct l = some w := by
  cases l with
  | nil =>
    rw [show matchStructAt [] = none from rfl] at h
    cases h
  | cons c r =>
    show (match matchStructAt (c :: r) with
      | some n => some n
      | none => searchStruct r) = some w
    rw [h]

/-- One inside-a-declaration step, written out on an explicit state. -/
theorem inStructStep_eq (ss : List StructDef) (nm buf : List Char) (b : Int)
    (line : List Char) :
    inStructStep ⟨ss, true, nm, b, buf⟩ line =
      if b + (line.count lb : Int) - (line.count rb : Int) = 0 ∧
          closeCond line (buf ++ line ++ ['\n']) then
        closeState ⟨ss, true, nm, b, buf⟩
          (b + (line.count lb : Int) - (line.count rb : Int))
          (buf ++ line ++ ['\n'])
      else ⟨ss, true, nm, b + (line.count lb : Int) - (line.count rb : Int),
        buf ++ line ++ ['\n']⟩ := rfl

/-- Inside a declaration the opener does nothing. -/
theorem maybeOpen_inStruct (st : PState) (line : List Char)
    (hst : st.in_struct = true) : maybeOpen st line = st := by
  unfold maybeOpen
  rw [hst]
  simp

/-- Inside a declaration, a non-skipped line goes to inStructStep. -/
theorem pstep_inStruct (st : PState) (line : List Char)
    (hst : st.in_struct = true) (hskip : stepSkip line = false) :
    pstep st line = inStructStep st line := by
  unfold pstep
  rw [hskip]
  simp only [Bool.false_eq_true, if_false]
  rw [maybeOpen_inStruct st line hst, if_pos hst]

/-- The name line opens a declaration with brace count 0 and the line as the
whole buffer: converter.py lines 61-96, the close test failing. -/
theorem pstep_nameLine (st : PState) (nm : List Char) (hst : st.in_struct = false)
    (hne : nm ≠ []) (hw : ∀ c ∈ nm, isWordChar c = true) :
    pstep st (str "struct __attribute__((packed)) " ++ nm) =
      ⟨st.structs, true, nm, 0,
        str "struct __attribute__((packed)) " ++ nm ++ ['\n']⟩ := by
  have hnm_not : ∀ x : Char, isWordChar x = false → x ∉ nm := by
    intro x hx hm
    have hwx := hw x hm
    rw [hwx] at hx
    cases hx
  have hslash : '/' ∉ str "struct __attribute__((packed)) " ++ nm := by
    intro hm
    rcases List.mem_append.mp hm with h | h
    · revert h; decide
    · exact hnm_not '/' (by decide) h
  have hskip : stepSkip (str "struct __attribute__((packed)) " ++ nm) = false := by
    refine stepSkip_false_of _ 's' ?_ (by decide) hslash
    exact List.mem_append.mpr (Or.inl (by decide))
  have hlb : lb ∉ str "struct __attribute__((packed)) " ++ nm := by
    intro hm
    rcases List.mem_append.mp hm with h | h
    · revert h; decide
    · exact hnm_not lb (by decide) h
  have hrb : rb ∉ str "struct __attribute__((packed)) " ++ nm := by
    intro hm
    rcases List.mem_append.mp hm with h | h
    · revert h; decide
    · exact hnm_not rb (by decide) h
  have hlb2 : ¬(lb ∈ str "struct __attribute__((packed)) " ∨ lb ∈ nm) := by
    rw [← List.mem_append]
    exact hlb
  have hopen : maybeOpen st (str "struct __attribute__((packed)) " ++ nm) =
      ⟨st.structs, true, nm, 0, []⟩ := by
    unfold maybeOpen
    rw [hst]
    simp only [Bool.false_eq_true, if_false]
    rw [searchStruct_eq_some _ nm (matchStructAt_nameLine nm hne hw)]
    simp [openState, hlb2]
  have hclose : closeCond (str "struct __attribute__((packed)) " ++ nm)
      (str "struct __attribute__((packed)) " ++ (nm ++ ['\n'])) = false := by
    unfold closeCond
    have h1 : containsSub [rb, ';'] (str "struct __attribute__((packed)) " ++ nm) =
        false := containsSub_eq_false _ _ rb (by decide) hrb
    have hsemi : ';' ∉ nm := hnm_not ';' (by decide)
    have h2 : [rb, ';'].isSuffixOf
        (pstrip (str "struct __attribute__((packed)) " ++ (nm ++ ['\n']))) = false := by
      refine isSuffixOf_false_of_not_mem _ _ ';' (by decide) ?_
      intro hm
      have hm2 := mem_pstrip _ ';' hm
      rcases List.mem_append.mp hm2 with h | h
      · revert h; decide
      · rcases List.mem_append.mp h with h | h
        · exact hsemi h
        · revert h; decide
    rw [h1, h2]
    rfl
  unfold pstep
  rw [hskip]
  simp only [Bool.false_eq_true, if_false]
  rw [hopen]
  rw [if_pos (show (PState.mk st.structs true nm 0 []).in_struct = true from rfl)]
  rw [inStructStep_eq]
  rw [List.count_eq_zero.mpr hlb, List.count_eq_zero.mpr hrb]
  rw [if_neg (by simp [hclose])]
  simp

/-- A lone open-brace line raises the count to one. -/
theorem pstep_openBrace (ss : List StructDef) (nm buf : List Char) :
    pstep ⟨ss, true, nm, 0, buf⟩ [lb] = ⟨ss, true, nm, 1, buf ++ [lb, '\n']⟩ := by
  rw [pstep_inStruct _ _ rfl (by decide), inStructStep_eq]
  rw [show (([lb] : List Char).count lb : Int) = 1 from by decide,
    show (([lb] : List Char).count rb : Int) = 0 from by decide]
  rw [if_neg (by simp)]
  simp

/-- Conditions under which a line inside a declaration just accumulates. -/
def bodyLineOK (line : List Char) : Prop :=
  (line.count lb : Int) = (line.count rb : Int) ∧ stepSkip line = false

/-- A brace-balanced line at count one accumulates into the buffer. -/
theorem pstep_bodyLine (ss : List StructDef) (nm buf line : List Char)
    (h : bodyLineOK line) :
    pstep ⟨ss, true, nm, 1, buf⟩ line =
      ⟨ss, true, nm, 1, buf ++ line ++ ['\n']⟩ := by
  obtain ⟨hcount, hskip⟩ := h
  rw [pstep_inStruct _ _ rfl hskip, inStructStep_eq, hcount]
  rw [if_neg (by rintro ⟨h1, h2⟩; omega)]
  have h3 : (1 : Int) + (line.count rb : Int) - (line.count rb : Int) = 1 := by omega
  rw [h3]

/-- Balanced lines accumulate into the buffer one after the other. -/
theorem foldl_bodyLines (ls : List (List Char)) :
    ∀ ss nm buf, (∀ l ∈ ls, bodyLineOK l) →
      ls.foldl pstep (⟨ss, true, nm, 1, buf⟩ : PState) =
        ⟨ss, true, nm, 1, buf ++ (ls.map (fun l => l ++ ['\n'])).flatten⟩ := by
  induction ls with
  | nil =>
    intro ss nm buf _
    simp
  | cons l rest ih =>
    intro ss nm buf hok
    rw [List.foldl_cons, pstep_bodyLine ss nm buf l (hok l (List.mem_cons_self l rest)),
      ih ss nm (buf ++ l ++ ['\n']) (fun x hx => hok x (List.mem_cons_of_mem l hx))]
    simp

/-- The close line: balance returns to zero and the declaration closes. -/
theorem pstep_closeLine (ss : List StructDef) (nm buf : List Char) :
    pstep ⟨ss, true, nm, 1, buf⟩ [rb, ';'] =
      closeState ⟨ss, true, nm, 1, buf⟩ 0 (buf ++ [rb, ';', '\n']) := by
  rw [pstep_inStruct _ _ rfl (by decide), inStructStep_eq]
  rw [show (([rb, ';'] : List Char).count lb : Int) = 0 from by decide,
    show (([rb, ';'] : List Char).count rb : Int) = 1 from by decide]
  have hcond : (1 : Int) + 0 - 1 = 0 ∧ closeCond [rb, ';']
      (buf ++ [rb, ';'] ++ ['\n']) = true := by
    refine ⟨by norm_num, ?_⟩
    unfold closeCond
    rw [show containsSub [rb, ';'] [rb, ';'] = true from by decide]
    rfl
  rw [if_pos hcond]
  have h2 : (1 : Int) + 0 - 1 = 0 := by norm_num
  rw [h2]
  have h3 : buf ++ [rb, ';'] ++ ['\n'] = buf ++ [rb, ';', '\n'] := by simp
  rw [h3]

/-- closeState on a buffer of the emitted shape extracts exactly the body
between the structural braces. -/
theorem closeState_body (st : PState) (bc : Int) (A mid : List Char)
    (hA : lb ∉ A) :
    closeState st bc (A ++ lb :: (mid ++ [rb, ';', '\n'])) =
      ⟨st.structs ++ [parseStructBody st.current_name mid], false,
        st.current_name, bc, A ++ lb :: (mid ++ [rb, ';', '\n'])⟩ := by
  have hfind : ffindIdx (fun c => c = lb) (A ++ lb :: (mid ++ [rb, ';', '\n'])) =
      some A.length := by
    unfold ffindIdx
    rw [List.findIdx?_append]
    have hnone : A.findIdx? (fun c => decide (c = lb)) = none := by
      rw [List.findIdx?_eq_none_iff]
      intro x hx
      simp only [decide_eq_false_iff_not]
      intro he
      exact hA (he ▸ hx)
    rw [hnone]
    have hcons : (lb :: (mid ++ [rb, ';', '\n'])).findIdx?
        (fun c => decide (c = lb)) = some 0 := by
      rw [List.findIdx?_cons]
      simp
    rw [hcons]
    simp
  have hrfind : rfindIdx (fun c => c = rb) (A ++ lb :: (mid ++ [rb, ';', '\n'])) =
      some (A.length + 1 + mid.length) := by
    unfold rfindIdx
    have hrev : (A ++ lb :: (mid ++ [rb, ';', '\n'])).reverse =
        '\n' :: ';' :: rb :: ((A ++ lb :: mid).reverse) := by
      rw [show A ++ lb :: (mid ++ [rb, ';', '\n']) =
        (A ++ lb :: mid) ++ [rb, ';', '\n'] from by simp]
      simp
    rw [hrev]
    have hval : List.findIdx? (fun c => c = rb)
        ('\n' :: ';' :: rb :: ((A ++ lb :: mid).reverse)) = some 2 := by
      simp [List.findIdx?_cons]
      decide
    rw [hval]
    simp
    omega
  unfold closeState
  rw [hfind, hrfind]
  have hslice : ((A ++ lb :: (mid ++ [rb, ';', '\n'])).drop (A.length + 1)).take
      (A.length + 1 + mid.length - (A.length + 1)) = mid := by
    have hd : (A ++ lb :: (mid ++ [rb, ';', '\n'])).drop (A.length + 1) =
        mid ++ [rb, ';', '\n'] := by
      rw [show A.length + 1 = (A ++ [lb]).length from by simp]
      rw [show A ++ lb :: (mid ++ [rb, ';', '\n']) =
        (A ++ [lb]) ++ (mid ++ [rb, ';', '\n']) from by simp]
      exact List.drop_left _ _
    rw [hd]
    have hn : A.length + 1 + mid.length - (A.length + 1) = mid.length := by omega
    rw [hn, List.take_left]
  show (⟨st.structs ++ [parseStructBody st.current_name
      (((A ++ lb :: (mid ++ [rb, ';', '\n'])).drop (A.length + 1)).take
        (A.length + 1 + mid.length - (A.length + 1)))], false, st.current_name, bc,
      A ++ lb :: (mid ++ [rb, ';', '\n'])⟩ : PState) =
    ⟨st.structs ++ [parseStructBody st.current_name mid], false, st.current_name, bc,
      A ++ lb :: (mid ++ [rb, ';', '\n'])⟩
  rw [hslice]

/-! The full declaration round: parsing the emitted declaration of one
canonical record gives exactly the expanded record. -/

/-- Neither brace occurs in the header initializer text. -/
theorem braces_not_mem_slots (tag : List Char) (htag : tagWf tag) :
    lb ∉ pyJoin (str ", ") (headerSlots tag) ∧
      rb ∉ pyJoin (str ", ") (headerSlots tag) := by
  constructor
  · intro hm
    rcases mem_slotsStr tag lb htag hm with h | h | h | h | h | h <;> revert h <;> decide
  · intro hm
    rcases mem_slotsStr tag rb htag hm with h | h | h | h | h | h <;> revert h <;> decide

/-- The synthetic header line has exactly one brace of each kind. -/
theorem count_headerLine (tag : List Char) (htag : tagWf tag) :
    (headerLine tag).count lb = 1 ∧ (headerLine tag).count rb = 1 := by
  obtain ⟨hJlb, hJrb⟩ := braces_not_mem_slots tag htag
  constructor
  · simp only [headerLine, List.count_append, List.count_eq_zero.mpr hJlb]
    decide
  · simp only [headerLine, List.count_append, List.count_eq_zero.mpr hJrb]
    decide

/-- No comment marker in the synthetic header line. -/
theorem slash_not_mem_headerLine (tag : List Char) (htag : tagWf tag) :
    '/' ∉ headerLine tag := by
  intro hm
  unfold headerLine at hm
  rcases List.mem_append.mp hm with h | h
  · rcases List.mem_append.mp h with h | h
    · rcases List.mem_append.mp h with h | h
      · revert h; decide
      · revert h; decide
    · rcases mem_slotsStr tag '/' htag h with h | h | h | h | h | h <;>
        revert h <;> decide
  · revert h; decide

/-- The synthetic header line accumulates like any balanced member line. -/
theorem headerLine_bodyOK (tag : List Char) (htag : tagWf tag) :
    bodyLineOK (headerLine tag) := by
  constructor
  · rw [(count_headerLine tag htag).1, (count_headerLine tag htag).2]
  · refine stepSkip_false_of _ 'c' ?_ (by decide) (slash_not_mem_headerLine tag htag)
    unfold headerLine
    refine List.mem_append.mpr (Or.inl (List.mem_append.mpr
      (Or.inl (List.mem_append.mpr (Or.inl ?_)))))
    decide

/-- An emitted member line accumulates: braces balanced at zero each and the
line is visible. -/
theorem fieldLine_bodyOK (f : Field) (hf : fieldWf f) : bodyLineOK (fieldLine f) := by
  obtain ⟨⟨hnne, hnw⟩, ⟨htne, htw⟩, _⟩ := hf
  have hnotmem : ∀ x : Char, isWordChar x = false → x ≠ ' ' → x ≠ ';' →
      x ∉ fieldLine f := by
    intro x hxw hxs hxsemi hm
    unfold fieldLine at hm
    rcases List.mem_append.mp hm with hm | hm
    · rcases List.mem_append.mp hm with hm | hm
      · rcases List.mem_append.mp hm with hm | hm
        · rcases List.mem_append.mp hm with hm | hm
          · exact hxs (by simpa [str] using hm)
          · have := htw x hm
            rw [hxw] at this
            cases this
        · exact hxs (by simpa using hm)
      · have := hnw x hm
        rw [hxw] at this
        cases this
    · exact hxsemi (by simpa using hm)
  constructor
  · rw [List.count_eq_zero.mpr (hnotmem lb (by decide) (by decide) (by decide)),
      List.count_eq_zero.mpr (hnotmem rb (by decide) (by decide) (by decide))]
  · obtain ⟨c, hc⟩ := List.exists_mem_of_ne_nil f.type_name htne
    refine stepSkip_false_of _ c ?_ (word_not_space c (htw c hc))
      (hnotmem '/' (by decide) (by decide) (by decide))
    unfold fieldLine
    exact List.mem_append.mpr (Or.inl (List.mem_append.mpr (Or.inl
      (List.mem_append.mpr (Or.inl (List.mem_append.mpr (Or.inr hc)))))))

/-- Lemma A: the Declaration Parser on the emitted declaration of one
canonical record recovers exactly the expanded record. -/
theorem parse_generate_single (s : StructDef) (hs : renderWf s) :
    parse_header_file (generate_header [s]) = [expandStruct s] := by
  obtain ⟨⟨hne, hw⟩, hfs, htag⟩ := hs
  have hnm_not : ∀ x : Char, isWordChar x = false → x ∉ s.name := by
    intro x hx hm
    have hwx := hw x hm
    rw [hwx] at hx
    cases hx
  have hA : lb ∉ str "struct __attribute__((packed)) " ++ s.name ++ ['\n'] := by
    intro hm
    rcases List.mem_append.mp hm with h | h
    · rcases List.mem_append.mp h with h | h
      · revert h; decide
      · exact hnm_not lb (by decide) h
    · revert h; decide
  have hok : ∀ l ∈ (if emitsHeaderLine s then [headerLine s.header_string] else []) ++
      s.fields.map fieldLine, bodyLineOK l := by
    intro l hl
    rcases List.mem_append.mp hl with h | h
    · split at h
      · have he := List.mem_singleton.mp h
        subst he
        exact headerLine_bodyOK _ htag
      · cases h
    · obtain ⟨f, hf, rfl⟩ := List.mem_map.mp h
      exact fieldLine_bodyOK f (hfs f hf)
  unfold parse_header_file generate_header
  rw [show ([s].map structLines).flatten = structLines s from by simp]
  unfold structLines
  rw [List.foldl_cons, show pstep initPState (str "#pragma once") = initPState from
    by decide]
  rw [List.foldl_cons, show pstep initPState (str "#include <cstdint>") = initPState
    from by decide]
  rw [List.foldl_cons, show pstep initPState [] = initPState from by decide]
  rw [List.foldl_cons, pstep_nameLine initPState s.name rfl hne hw]
  rw [List.foldl_cons, pstep_openBrace]
  rw [List.foldl_append _ _ _ _]
  rw [foldl_bodyLines _ _ _ _ hok]
  rw [List.foldl_cons, pstep_closeLine, List.foldl_cons,
    pstep_skip _ _ (by decide), List.foldl_nil]
  rw [show (((str "struct __attribute__((packed)) " ++ s.name ++ ['\n']) ++ [lb, '\n'] ++
      (((if emitsHeaderLine s then [headerLine s.header_string] else []) ++
        s.fields.map fieldLine).map (fun l => l ++ ['\n'])).flatten) ++ [rb, ';', '\n']) =
    ((str "struct __attribute__((packed)) " ++ s.name ++ ['\n']) ++ lb ::
      (('\n' :: (((if emitsHeaderLine s then [headerLine s.header_string] else []) ++
        s.fields.map fieldLine).map (fun l => l ++ ['\n'])).flatten) ++ [rb, ';', '\n']))
    from by simp]
  rw [closeState_body _ 0 _ _ hA]
  cases hemit : emitsHeaderLine s with
  | false =>
    show initPState.structs ++ [parseStructBody s.name
        ('\n' :: ((s.fields.map fieldLine).map (fun l => l ++ ['\n'])).flatten)] =
      [expandStruct s]
    have hmap : ('\n' :: ((s.fields.map fieldLine).map (fun l => l ++ ['\n'])).flatten) =
        ('\n' :: (s.fields.map (fun f => fieldLine f ++ ['\n'])).flatten) := by
      rw [List.map_map]
      rfl
    rw [hmap, parseStructBody_noHeader s.name s.fields hfs]
    have hexp : expandStruct s =
        ⟨s.name, reassignFrom 0 s.fields, [], scalarSizes s.fields⟩ := by
      unfold expandStruct
      rw [hemit]
      simp
    rw [hexp]
    rfl
  | true =>
    show initPState.structs ++ [parseStructBody s.name
        ('\n' :: ((headerLine s.header_string :: s.fields.map fieldLine).map
          (fun l => l ++ ['\n'])).flatten)] = [expandStruct s]
    have hmap : ('\n' :: ((headerLine s.header_string :: s.fields.map fieldLine).map
        (fun l => l ++ ['\n'])).flatten) =
      ('\n' :: headerLine s.header_string ++ '\n' ::
        (s.fields.map (fun f => fieldLine f ++ ['\n'])).flatten) := by
      simp [Function.comp]
      rfl
    rw [hmap, parseStructBody_withHeader s.name s.header_string s.fields htag hfs]
    have hexp : expandStruct s = ⟨s.name, headerField :: reassignFrom 4 s.fields,
        s.header_string, 4 + scalarSizes s.fields⟩ := by
      unfold expandStruct
      rw [hemit]
      simp
    rw [hexp]
    rfl

/-! The schema round trip on parsed records, and claim C2. -/

/-- Re-binning the offsets leaves every flag and width canonical, so mapping
back from a schema document is the identity on such lists. -/
theorem reassignFrom_map_self (b : Nat) (l : List Field) :
    (reassignFrom b l).map
        (fun f => (⟨f.name, f.type_name, false, 0, f.offset⟩ : Field)) =
      reassignFrom b l := by
  induction l generalizing b with
  | nil => rfl
  | cons f t ih => simp [reassignFrom, ih]

/-- Recomputing offsets twice is the same as once. -/
theorem reassignFrom_idem (b c : Nat) (l : List Field) :
    reassignFrom b (reassignFrom c l) = reassignFrom b l := by
  induction l generalizing b c with
  | nil => rfl
  | cons f t ih => simp [reassignFrom, ih]

/-- Recomputing offsets keeps the scalar widths. -/
theorem scalarSizes_reassignFrom (b : Nat) (l : List Field) :
    scalarSizes (reassignFrom b l) = scalarSizes l := by
  induction l generalizing b with
  | nil => rfl
  | cons f t ih =>
    show scalarSizes (⟨f.name, f.type_name, false, 0, b⟩ ::
      reassignFrom (b + typeSize f.type_name) t) = scalarSizes (f :: t)
    unfold scalarSizes
    simp only [List.map_cons, List.sum_cons]
    have h := ih (b + typeSize f.type_name)
    unfold scalarSizes at h
    rw [h]

/-- Recomputing offsets keeps the canonical-form conditions. -/
theorem reassignFrom_wf (b : Nat) (l : List Field) (h : ∀ f ∈ l, fieldWf f) :
    ∀ g ∈ reassignFrom b l, fieldWf g := by
  induction l generalizing b with
  | nil =>
    intro g hg
    cases hg
  | cons f t ih =>
    intro g hg
    rw [show reassignFrom b (f :: t) = ⟨f.name, f.type_name, false, 0, b⟩ ::
      reassignFrom (b + typeSize f.type_name) t from rfl] at hg
    rcases List.mem_cons.mp hg with rfl | hg
    · obtain ⟨hn, ht, hh⟩ := h f (List.mem_cons_self f t)
      exact ⟨hn, ht, hh⟩
    · exact ih _ (fun x hx => h x (List.mem_cons_of_mem f hx)) g hg

/-- Every recomputed offset is at least the base cursor. -/
theorem reassignFrom_offset_le (b : Nat) (l : List Field) :
    ∀ g ∈ reassignFrom b l, b ≤ g.offset := by
  induction l generalizing b with
  | nil =>
    intro g hg
    cases hg
  | cons f t ih =>
    intro g hg
    rw [show reassignFrom b (f :: t) = ⟨f.name, f.type_name, false, 0, b⟩ ::
      reassignFrom (b + typeSize f.type_name) t from rfl] at hg
    rcases List.mem_cons.mp hg with rfl | hg
    · exact le_refl b
    · exact le_trans (Nat.le_add_right b _) (ih _ g hg)

/-- Recomputed offsets are nondecreasing. -/
theorem reassignFrom_pairwise (b : Nat) (l : List Field) :
    List.Pairwise (fun a g => a.offset ≤ g.offset) (reassignFrom b l) := by
  induction l generalizing b with
  | nil => exact List.Pairwise.nil
  | cons f t ih =>
    rw [show reassignFrom b (f :: t) = ⟨f.name, f.type_name, false, 0, b⟩ ::
      reassignFrom (b + typeSize f.type_name) t from rfl]
    refine List.pairwise_cons.mpr ⟨?_, ih _⟩
    intro g hg
    exact le_trans (Nat.le_add_right b _) (reassignFrom_offset_le _ t g hg)

/-- No canonical field is named header, so the schema filter keeps them all. -/
theorem schemaVisible_reassignFrom (b : Nat) (l : List Field)
    (h : ∀ f ∈ l, fieldWf f) :
    schemaVisible (reassignFrom b l) = reassignFrom b l := by
  unfold schemaVisible
  rw [List.filter_eq_self]
  intro g hg
  obtain ⟨_, _, hh⟩ := reassignFrom_wf b l h g hg
  exact decide_eq_true hh

/-- The parsed synthetic header member is dropped by the schema filter. -/
theorem schemaVisible_header_cons (l : List Field) :
    schemaVisible (headerField :: l) = schemaVisible l := by
  unfold schemaVisible
  rw [List.filter_cons]
  simp [headerField]

/-- The raw field list recovered from an emitted packet. -/
theorem rawYaml_genPacket (X : StructDef) :
    rawYamlFields (genPacket X) =
      (schemaVisible X.fields).map
        (fun f => (⟨f.name, f.type_name, false, 0, f.offset⟩ : Field)) := by
  simp only [genPacket, rawYamlFields, Option.getD_some, List.map_map]
  rfl

/-- The Schema Parser applied to one emitted packet, written out. -/
theorem parsePacket_genPacket (X : StructDef) :
    parsePacket (genPacket X) =
      ⟨toRecordName (toPacketId X.name),
        sortFields ((schemaVisible X.fields).map
          (fun f => (⟨f.name, f.type_name, false, 0, f.offset⟩ : Field))),
        (if X.header_string.isEmpty then toPacketId X.name else X.header_string),
        0⟩ := by
  unfold parsePacket
  rw [rawYaml_genPacket]
  rfl

/-- The packet identifier keeps only characters of the record name. -/
theorem tagWf_toPacketId (n : List Char) (h : ∀ c ∈ n, isWordChar c = true) :
    tagWf (toPacketId n) := by
  intro c hc
  unfold toPacketId at hc
  split at hc
  · exact h c (List.take_subset _ _ hc)
  · exact h c hc

/-- A record that emits the synthetic header member has a first offset at
least 4 and a non-empty tag. -/
theorem emits_parts (s : StructDef) (hemit : emitsHeaderLine s = true) :
    4 ≤ firstOffset s ∧ s.header_string.isEmpty = false := by
  have h := hemit
  unfold emitsHeaderLine at h
  simp only [Bool.and_eq_true, decide_eq_true_eq, Bool.not_eq_true'] at h
  exact h

/-- Schema round trip of the parsed declaration, header-emitting case. -/
theorem s2_true (s : StructDef) (hfs : ∀ f ∈ s.fields, fieldWf f)
    (hne : s.header_string.isEmpty = false) :
    parsePacket (genPacket ⟨s.name, headerField :: reassignFrom 4 s.fields,
        s.header_string, 4 + scalarSizes s.fields⟩) =
      ⟨toRecordName (toPacketId s.name), reassignFrom 4 s.fields,
        s.header_string, 0⟩ := by
  rw [parsePacket_genPacket]
  show (⟨toRecordName (toPacketId s.name),
      sortFields ((schemaVisible (headerField :: reassignFrom 4 s.fields)).map
        (fun f => (⟨f.name, f.type_name, false, 0, f.offset⟩ : Field))),
      (if s.header_string.isEmpty then toPacketId s.name else s.header_string),
      0⟩ : StructDef) = _
  rw [schemaVisible_header_cons, schemaVisible_reassignFrom 4 s.fields hfs,
    reassignFrom_map_self,
    sortFields_of_pairwise _ (reassignFrom_pairwise 4 s.fields), hne]
  simp

/-- Schema round trip of the parsed declaration, no header emitted: the empty
tag is replaced by the packet identifier. -/
theorem s2_false (s : StructDef) (hfs : ∀ f ∈ s.fields, fieldWf f) :
    parsePacket (genPacket ⟨s.name, reassignFrom 0 s.fields, [],
        scalarSizes s.fields⟩) =
      ⟨toRecordName (toPacketId s.name), reassignFrom 0 s.fields,
        toPacketId s.name, 0⟩ := by
  rw [parsePacket_genPacket]
  show (⟨toRecordName (toPacketId s.name),
      sortFields ((schemaVisible (reassignFrom 0 s.fields)).map
        (fun f => (⟨f.name, f.type_name, false, 0, f.offset⟩ : Field))),
      (if ([] : List Char).isEmpty then toPacketId s.name else []),
      0⟩ : StructDef) = _
  rw [schemaVisible_reassignFrom 0 s.fields hfs, reassignFrom_map_self,
    sortFields_of_pairwise _ (reassignFrom_pairwise 0 s.fields)]
  rfl

/-- Expanding the round-tripped record reproduces the first expansion,
header-emitting case. -/
theorem expandStruct_reassign4 (s : StructDef) (hemit : emitsHeaderLine s = true) :
    expandStruct ⟨s.name, reassignFrom 4 s.fields, s.header_string, 0⟩ =
      expandStruct s := by
  obtain ⟨h1, h2⟩ := emits_parts s hemit
  have hfne : s.fields ≠ [] := by
    intro h0
    unfold firstOffset at h1
    rw [h0] at h1
    exact absurd h1 (by decide)
  have hemit2 : emitsHeaderLine ⟨s.name, reassignFrom 4 s.fields,
      s.header_string, 0⟩ = true := by
    cases hf : s.fields with
    | nil => exact absurd hf hfne
    | cons f t =>
      unfold emitsHeaderLine firstOffset
      simp [reassignFrom, h2]
  unfold expandStruct
  rw [hemit2, hemit]
  simp [reassignFrom_idem, scalarSizes_reassignFrom]

/-- Expanding the round-tripped record reproduces the first expansion when no
header was emitted: first offset 0, so the replaced tag is never rendered. -/
theorem expandStruct_reassign0 (s : StructDef) (hemit : emitsHeaderLine s = false) :
    expandStruct ⟨s.name, reassignFrom 0 s.fields, toPacketId s.name, 0⟩ =
      expandStruct s := by
  have hemit2 : emitsHeaderLine ⟨s.name, reassignFrom 0 s.fields,
      toPacketId s.name, 0⟩ = false := by
    unfold emitsHeaderLine firstOffset
    cases hf : s.fields with
    | nil => simp [reassignFrom]
    | cons f t => simp [reassignFrom]
  unfold expandStruct
  rw [hemit2, hemit]
  simp [reassignFrom_idem, scalarSizes_reassignFrom]

/-- Concrete declaration source for the C2 counterexample: a valid packed
struct declaration whose record name does not end in Data. -/
def C2lines : List (List Char) :=
  [str "struct __attribute__((packed)) Foo", [lb], str "    float x;", [rb, ';']]

/-- C2 counterexample: the five-stage chain does not preserve the record name
of every valid declaration.  For a declaration of a record named Foo the
Schema Parser appends the Data suffix that the packet-identifier mapping
never removed, so the chain returns a record named FooData. -/
theorem C2_counterexample :
    ¬((parse_header_file (generate_header (parse_yaml_file (generate_yaml
        (parse_header_file C2lines))))).map (fun s => s.name) =
      (parse_header_file C2lines).map (fun s => s.name)) := by
  decide

/-- C2 (amended): for canonical records whose name ends in Data — identifier
name, word-character member names and types, no member named header, and a
word-character header tag — the chain parse_header_file, generate_yaml,
parse_yaml_file, generate_header, parse_header_file applied to the emitted
declaration reproduces the first parse exactly: the same records, name,
header_tag, every field and total_size included. -/
theorem C2_amended (s : StructDef) (hs : renderWf s)
    (hsuf : (str "Data").isSuffixOf s.name = true) :
    parse_header_file (generate_header (parse_yaml_file (generate_yaml
        (parse_header_file (generate_header [s]))))) =
      parse_header_file (generate_header [s]) := by
  rw [parse_generate_single s hs]
  rw [show parse_yaml_file (generate_yaml [expandStruct s]) =
    [parsePacket (genPacket (expandStruct s))] from rfl]
  obtain ⟨hname, hfs, htag⟩ := hs
  cases hemit : emitsHeaderLine s with
  | true =>
    have hexp : expandStruct s = ⟨s.name, headerField :: reassignFrom 4 s.fields,
        s.header_string, 4 + scalarSizes s.fields⟩ := by
      unfold expandStruct
      rw [hemit]
      simp
    rw [hexp, s2_true s hfs (emits_parts s hemit).2,
      toPacketId_toRecordName s.name hsuf]
    rw [parse_generate_single ⟨s.name, reassignFrom 4 s.fields, s.header_string, 0⟩
      ⟨hname, reassignFrom_wf 4 s.fields hfs, htag⟩]
    rw [expandStruct_reassign4 s hemit, hexp]
  | false =>
    have hexp : expandStruct s = ⟨s.name, reassignFrom 0 s.fields, [],
        scalarSizes s.fields⟩ := by
      unfold expandStruct
      rw [hemit]
      simp
    rw [hexp, s2_false s hfs, toPacketId_toRecordName s.name hsuf]
    rw [parse_generate_single ⟨s.name, reassignFrom 0 s.fields, toPacketId s.name, 0⟩
      ⟨hname, reassignFrom_wf 0 s.fields hfs, tagWf_toPacketId s.name hname.2⟩]
    rw [expandStruct_reassign0 s hemit, hexp]

/-- Concrete canonical record exercising the header-emitting branch of the
C2 round trip. -/
def C2s : StructDef :=
  ⟨str "PoseData",
    [⟨str "x", str "float", false, 0, 4⟩, ⟨str "q", str "uint8_t", false, 0, 8⟩],
    str "PO", 0⟩

/-- C2 witness: the amended round trip at a concrete canonical record. -/
theorem C2_witness :
    renderWf C2s ∧ (str "Data").isSuffixOf C2s.name = true ∧
      parse_header_file (generate_header (parse_yaml_file (generate_yaml
        (parse_header_file (generate_header [C2s]))))) =
      parse_header_file (generate_header [C2s]) :=
  ⟨by simp only [renderWf, wordStr, fieldWf, tagWf]; decide, by decide,
    C2_amended C2s (by simp only [renderWf, wordStr, fieldWf, tagWf]; decide) (by decide)⟩
end Converter
